import Mathlib

/-!
Verification of the `lz_compression` toolkit (Huffman, LZ77, LZW codecs over a
bit-level I/O substrate), as a shallow embedding in Lean.

Conventions used throughout the embedding:

* Rust machine integers are modelled as `Nat`; wrapping `u64` shifts are made
  explicit with `% 2 ^ 64`.
* A Rust `panic!` / failed `assert!` / out-of-bounds index / arithmetic
  underflow is modelled by an `Option`-valued function returning `none`, or by
  a dedicated result constructor where the distinction matters.
* Byte vectors and slices are `List Nat` (each element intended `< 256`).
* Rust `HashMap`s are modelled as functions into `Option`, updated pointwise
  (`HashMap::insert` overwrites); the LZW encoder dictionary, a dense
  `Vec<Vec<Option<u16>>>` array indexed by `(code, byte)`, is modelled as a
  finite map on the flat index `code * 256 + byte`.
* Loops whose termination is not structural are given an explicit fuel
  parameter (structural recursion on the fuel, so that concrete runs reduce
  inside the kernel); every embedded call passes fuel that the loop bound of
  the source shows to be sufficient, and fuel exhaustion is distinguished from
  a modelled panic wherever a theorem could observe the difference.
-/

namespace LZC

/-! ## Bit-level I/O (src/bitstream.rs) -/

def U64_MOD : Nat := 2 ^ 64

/-- `BitWriter` state: `bits_written_to_buffer`, the 64-bit accumulator
`buffer` (bits packed from position 63 downward), and the spilled `bytes`. -/
structure BitWriter where
  bits_written_to_buffer : Nat
  buffer : Nat
  bytes : List Nat
deriving DecidableEq

def BitWriter.new : BitWriter := ⟨0, 0, []⟩

def BitWriter.total_bits_written (w : BitWriter) : Nat :=
  w.bytes.length * 8 + w.bits_written_to_buffer

/-- The loop of `BitWriter::flush`: while at least 8 bits are buffered, spill
the top byte of the accumulator and shift the accumulator left by 8 (a
wrapping `u64` shift).  Each iteration removes 8 buffered bits, so
`bits_written_to_buffer` iterations of fuel always suffice. -/
def BitWriter.flushGo : Nat → BitWriter → BitWriter
  | 0, w => w
  | fuel + 1, w =>
    if 8 ≤ w.bits_written_to_buffer then
      BitWriter.flushGo fuel
        ⟨w.bits_written_to_buffer - 8, w.buffer * 2 ^ 8 % U64_MOD,
         w.bytes ++ [w.buffer / 2 ^ 56]⟩
    else w

/-- `BitWriter::flush`. -/
def BitWriter.flush (w : BitWriter) : BitWriter :=
  BitWriter.flushGo w.bits_written_to_buffer w

/-- `BitWriter::write_bits_u16`.  The source masks `data` to its low `bit_num`
bits and ORs them into the accumulator below the bits already staged; the
`assert!(bit_num <= 16)` holds at every embedded call site (LZW code widths
are at most 12), so the precondition is left implicit. -/
def BitWriter.write_bits_u16 (w : BitWriter) (data : Nat) (bit_num : Nat) : BitWriter :=
  let mask := 2 ^ bit_num - 1
  BitWriter.flush
    ⟨w.bits_written_to_buffer + bit_num,
     w.buffer ||| (data &&& mask) <<< (64 - w.bits_written_to_buffer - bit_num),
     w.bytes⟩

/-- `BitWriter::write_bits_u32`; identical accumulator arithmetic with a
32-bit bound on `bit_num` (which holds at every embedded call site). -/
def BitWriter.write_bits_u32 (w : BitWriter) (data : Nat) (bit_num : Nat) : BitWriter :=
  let mask := 2 ^ bit_num - 1
  BitWriter.flush
    ⟨w.bits_written_to_buffer + bit_num,
     w.buffer ||| (data &&& mask) <<< (64 - w.bits_written_to_buffer - bit_num),
     w.bytes⟩

/-- `BitWriter::get_bytes`: the spilled bytes, plus the top byte of the
accumulator when a partial byte is staged. -/
def BitWriter.get_bytes (w : BitWriter) : List Nat :=
  if 0 < w.bits_written_to_buffer then w.bytes ++ [w.buffer / 2 ^ 56] else w.bytes

/-- `BitReader` state, mirroring the five fields of the Rust struct; `bytes`
is the not-yet-buffered remainder of the borrowed slice. -/
structure BitReader where
  buffer : Nat
  remaining_bits : Nat
  bits_in_buffer : Nat
  unused_bits_in_buffer : Nat
  bytes : List Nat
deriving DecidableEq

/-- The loop of `BitReader::refill`, structurally recursing on the byte list
it consumes (the state's `bytes` field is kept in lockstep with the list
argument): move whole bytes into the low unused portion of the accumulator
while at least 8 unused bits are available. -/
def BitReader.refillGo : List Nat → BitReader → BitReader
  | [], br => br
  | byte :: rest, br =>
    if 8 ≤ br.unused_bits_in_buffer then
      BitReader.refillGo rest
        ⟨br.buffer ||| byte <<< (br.unused_bits_in_buffer - 8), br.remaining_bits,
         br.bits_in_buffer + 8, br.unused_bits_in_buffer - 8, rest⟩
    else br

/-- `BitReader::refill`. -/
def BitReader.refill (br : BitReader) : BitReader :=
  BitReader.refillGo br.bytes br

/-- `BitReader::new`. -/
def BitReader.new (bytes : List Nat) : BitReader :=
  BitReader.refill ⟨0, bytes.length * 8, 0, 64, bytes⟩

/-- `BitReader::read_bits_into_u32`.  `none` models both the failed
`assert!(bit_num <= 32)` and the `None` return at end of stream.  When
`0 < remaining_bits < bit_num` the source recurses with
`bit_num := remaining_bits` (a saturating read), which is the well-founded
recursion below.  The accumulator-counter subtractions cannot underflow in any
state reachable through this API (`bits_in_buffer ≥ min(remaining_bits, 57)`
after every refill), so they are plain `Nat` subtraction here. -/
def BitReader.read_bits_into_u32 (br : BitReader) (bit_num : Nat) :
    Option (Nat × BitReader) :=
  if 32 < bit_num then none
  else if br.remaining_bits = 0 then none
  else if h : br.remaining_bits < bit_num then
    br.read_bits_into_u32 br.remaining_bits
  else if bit_num = 0 then some (0, br)
  else
    some (br.buffer / 2 ^ (64 - bit_num),
      BitReader.refill
        ⟨(br.buffer <<< bit_num) % U64_MOD, br.remaining_bits - bit_num,
         br.bits_in_buffer - bit_num, br.unused_bits_in_buffer + bit_num, br.bytes⟩)
termination_by bit_num

/-- `BitReader::read_bits_into_u16`; same shape with a 16-bit bound. -/
def BitReader.read_bits_into_u16 (br : BitReader) (bit_num : Nat) :
    Option (Nat × BitReader) :=
  if 16 < bit_num then none
  else if br.remaining_bits = 0 then none
  else if h : br.remaining_bits < bit_num then
    br.read_bits_into_u16 br.remaining_bits
  else if bit_num = 0 then some (0, br)
  else
    some (br.buffer / 2 ^ (64 - bit_num),
      BitReader.refill
        ⟨(br.buffer <<< bit_num) % U64_MOD, br.remaining_bits - bit_num,
         br.bits_in_buffer - bit_num, br.unused_bits_in_buffer + bit_num, br.bytes⟩)
termination_by bit_num

/-- Result of `BitReader::empty_bits`: a normal return, a Rust panic (left
shift overflow or counter underflow in the fall-through arithmetic), or fuel
exhaustion (the recursion did not return within `fuel` nested calls). -/
inductive ERes where
  | ok (br : BitReader)
  | panicked
  | outOfFuel
deriving DecidableEq

/-- Sequencing for `ERes`: continue with the state of a normal return,
propagate a panic or fuel exhaustion. -/
def ERes.andThen (r : ERes) (f : BitReader → ERes) : ERes :=
  match r with
  | ERes.ok br => f br
  | e => e

@[simp] theorem ERes.andThen_ok (br : BitReader) (f : BitReader → ERes) :
    (ERes.ok br).andThen f = f br := rfl

@[simp] theorem ERes.andThen_panicked (f : BitReader → ERes) :
    ERes.panicked.andThen f = ERes.panicked := rfl

@[simp] theorem ERes.andThen_outOfFuel (f : BitReader → ERes) :
    ERes.outOfFuel.andThen f = ERes.outOfFuel := rfl

/-- `BitReader::empty_bits`, fuelled.  The source is

    if bit_num > self.remaining_bits { self.empty_bits(self.remaining_bits); }
    if bit_num > self.bits_in_buffer {
        self.empty_bits(self.bits_in_buffer);
        self.empty_bits(bit_num - self.bits_in_buffer);
    }
    self.buffer <<= bit_num;
    self.bits_in_buffer -= bit_num;
    self.unused_bits_in_buffer += bit_num;
    self.remaining_bits -= bit_num;
    self.refill();

Note that neither guard returns early: after the recursive calls mutate
`self`, control always falls through to the final arithmetic, whose `u64`
shift (panics when `bit_num ≥ 64`) and `usize` subtractions (panic on
underflow) are checked here and modelled by `.panicked`.  The second inner
call's argument reads `self.bits_in_buffer` after the first inner call has
mutated it. -/
def BitReader.empty_bits : Nat → BitReader → Nat → ERes
  | 0, _, _ => ERes.outOfFuel
  | fuel + 1, br, bit_num =>
    (if br.remaining_bits < bit_num then BitReader.empty_bits fuel br br.remaining_bits
     else ERes.ok br).andThen fun br1 =>
    (if br1.bits_in_buffer < bit_num then
       (BitReader.empty_bits fuel br1 br1.bits_in_buffer).andThen fun br2 =>
         BitReader.empty_bits fuel br2 (bit_num - br2.bits_in_buffer)
     else ERes.ok br1).andThen fun br3 =>
    if 64 ≤ bit_num ∨ br3.bits_in_buffer < bit_num ∨ br3.remaining_bits < bit_num then
      ERes.panicked
    else
      ERes.ok (BitReader.refill
        ⟨(br3.buffer <<< bit_num) % U64_MOD, br3.remaining_bits - bit_num,
         br3.bits_in_buffer - bit_num, br3.unused_bits_in_buffer + bit_num, br3.bytes⟩)

/-- Well-formedness of a reader state, as established by `BitReader.new` and
preserved by every consuming operation: the accumulator fits in 64 bits, the
used/unused counters partition the accumulator, `remaining_bits` counts the
buffered and backing bits, and after a refill either the backing slice is
drained or at least 57 bits are buffered. -/
def BitReader.WF (br : BitReader) : Prop :=
  br.buffer < U64_MOD ∧
  br.bits_in_buffer + br.unused_bits_in_buffer = 64 ∧
  br.remaining_bits = br.bits_in_buffer + 8 * br.bytes.length ∧
  (br.bytes = [] ∨ 57 ≤ br.bits_in_buffer)

instance (br : BitReader) : Decidable br.WF := by
  unfold BitReader.WF; infer_instance

/-! ## LZ77 (src/lz77.rs) -/

def MAX_MATCH_NUM : Nat := 1

/-- The 3-byte key type of the LZ77 hash chains (`type LZ77MapKey = [u8; 3]`). -/
abbrev LZ77MapKey : Type := Nat × Nat × Nat

/-- The two `HashMap`s of `LZ77MatchFinder`, modelled as functions into
`Option` (a `HashMap::insert` overwrites pointwise); the borrowed `buffer`
and the three length parameters are passed alongside. -/
structure LZ77MatchFinder where
  window_size : Nat
  min_match_len : Nat
  max_match_len : Nat
  head_map : LZ77MapKey → Option Nat
  next_map : Nat → Option Nat

inductive LZ77Data where
  | Literal (val : Nat)
  | Match (length offset : Nat)
deriving DecidableEq

/-- Checked `usize` subtraction: `none` models the debug-mode underflow
panic. -/
def checkedSub (a b : Nat) : Option Nat := if b ≤ a then some (a - b) else none

/-- `LZ77MatchFinder::key_from_bytes`: the three bytes at `pos`.  The source
indexes `buffer[pos..pos+3]`; every reachable call site maintains
`pos + 3 ≤ buffer.len()`, so the `getD` default is never read. -/
def key_from_bytes (buffer : List Nat) (pos : Nat) : LZ77MapKey :=
  (buffer.getD pos 0, buffer.getD (pos + 1) 0, buffer.getD (pos + 2) 0)

/-- `LZ77MatchFinder::insert`: chain the previous head (if any) behind `pos`,
then make `pos` the new head for its key. -/
def LZ77MatchFinder.insert (fm : LZ77MatchFinder) (buffer : List Nat) (pos : Nat) :
    LZ77MatchFinder :=
  let key := key_from_bytes buffer pos
  let fm1 :=
    match fm.head_map key with
    | some head =>
      { fm with next_map := fun p => if p = pos then some head else fm.next_map p }
    | none => fm
  { fm1 with head_map := fun k => if k = key then some pos else fm1.head_map k }

/-- Length of the common prefix of two byte lists: the
`zip … take_while(|(a,b)| a == b).count()` of the source. -/
def commonLen : List Nat → List Nat → Nat
  | x :: xs, y :: ys => if x = y then commonLen xs ys + 1 else 0
  | _, _ => 0

/-- `LZ77MatchFinder::match_len`: the length of agreement of the byte runs
from `source_pos` and `match_pos`, capped at `max_match_len - 3`; the `usize`
subtraction `self.max_match_len - 3` underflows (panics) when
`max_match_len < 3`. -/
def LZ77MatchFinder.match_len (fm : LZ77MatchFinder) (buffer : List Nat)
    (source_pos match_pos : Nat) : Option Nat :=
  (checkedSub fm.max_match_len 3).map fun t =>
    commonLen ((buffer.drop source_pos).take t) (buffer.drop match_pos)

/-- The candidate-walk loop of `LZ77MatchFinder::find_match`.  The source
breaks once `match_num` exceeds `MAX_MATCH_NUM`, so the body runs at most
`MAX_MATCH_NUM + 1` times and the fuel passed by `find_match` is never
exhausted; `none` propagates the `match_len` underflow panic. -/
def findMatchLoop (fm : LZ77MatchFinder) (buffer : List Nat) (pos min_pos : Nat) :
    Nat → Option Nat → Nat → Nat → Nat → Option (Nat × Nat)
  | 0, _, _, _, _ => none
  | _ + 1, none, _, length, offset => some (length, offset)
  | fuel + 1, some next, match_num, length, offset =>
    if next < min_pos then some (length, offset)
    else if MAX_MATCH_NUM < match_num + 1 then some (length, offset)
    else
      match fm.match_len buffer (pos + 3) (next + 3) with
      | none => none
      | some ml =>
        findMatchLoop fm buffer pos min_pos fuel (fm.next_map next) (match_num + 1)
          (if length < ml + 3 then ml + 3 else length)
          (if length < ml + 3 then pos - next else offset)

/-- `LZ77MatchFinder::find_match`: walk the hash chain for the key at `pos`,
insert `pos`, then emit a back-reference when both the best length and the
offset reach `min_match_len`, and a literal otherwise. -/
def LZ77MatchFinder.find_match (fm : LZ77MatchFinder) (buffer : List Nat) (pos : Nat) :
    Option (LZ77Data × LZ77MatchFinder) :=
  match findMatchLoop fm buffer pos
      (if pos < fm.window_size then 0 else pos - fm.window_size) (MAX_MATCH_NUM + 2)
      (fm.head_map (key_from_bytes buffer pos)) 0 0 0 with
  | none => none
  | some (length, offset) =>
    some
      (if fm.min_match_len ≤ length ∧ fm.min_match_len ≤ offset then
          LZ77Data.Match length offset
        else LZ77Data.Literal (buffer.getD pos 0),
       fm.insert buffer pos)

/-- The skipped-position loop of `lz77_compress_simple`:

    for pos_to_add in (pos..).take(length).skip(1) {
        if pos_to_add + 3 <= buffer.len() {break;}
        matcher.insert(pos_to_add);
    }

Note the guard breaks when inserting would be in bounds and only inserts when
`pos_to_add + 3 > buffer.len()`. -/
def insertSkipped (buffer : List Nat) : LZ77MatchFinder → List Nat → LZ77MatchFinder
  | fm, [] => fm
  | fm, p :: rest =>
    if p + 3 ≤ buffer.length then fm
    else insertSkipped buffer (fm.insert buffer p) rest

/-- The decompression step for one `LZ77Data` item.  A back-reference copies
byte-by-byte from `|output| - offset`, so overlapping copies re-read bytes the
same item just wrote; `lz77CopyGo start i k dec` performs the remaining `k`
iterations of the copy loop starting at iteration `i`. -/
def lz77CopyGo (startPos : Nat) : Nat → Nat → List Nat → List Nat
  | _, 0, dec => dec
  | i, k + 1, dec => lz77CopyGo startPos (i + 1) k (dec ++ [dec.getD (startPos + i) 0])

/-- One `for data in encoded.data` iteration of `lz77_decompress`. -/
def lz77DecStep (dec : List Nat) (d : LZ77Data) : List Nat :=
  match d with
  | LZ77Data.Literal v => dec ++ [v]
  | LZ77Data.Match length offset => lz77CopyGo (dec.length - offset) 0 length dec

/-- `lz77_decompress`. -/
def lz77_decompress (data : List LZ77Data) : List Nat :=
  data.foldl lz77DecStep []

/-- The main loop of `lz77_compress_simple`.  The position advances by at
least 1 per iteration, so `buffer.length + 1` fuel is always sufficient;
`none` propagates the `match_len` underflow panic. -/
def lz77CompressGo (buffer : List Nat) :
    Nat → LZ77MatchFinder → Nat → List LZ77Data → Option (List LZ77Data × LZ77MatchFinder)
  | 0, _, _, _ => none
  | fuel + 1, fm, pos, data =>
    if pos + 3 < buffer.length then
      match fm.find_match buffer pos with
      | none => none
      | some (d, fm1) =>
        match d with
        | LZ77Data.Match length _ =>
          let fm2 := insertSkipped buffer fm1 (List.range' (pos + 1) (length - 1))
          lz77CompressGo buffer fuel fm2 (pos + length) (data ++ [d])
        | LZ77Data.Literal _ => lz77CompressGo buffer fuel fm1 (pos + 1) (data ++ [d])
    else some (data ++ (buffer.drop pos).map LZ77Data.Literal, fm)

/-- `lz77_compress_simple`, also returning the final match-finder state (used
to observe the hash-chain index); the `assert!`s of `LZ77MatchFinder::new`
are the two guards. -/
def lz77_compress_full (buffer : List Nat)
    (window_size min_match_len max_match_len : Nat) :
    Option (List LZ77Data × LZ77MatchFinder) :=
  if min_match_len = 0 ∨ window_size = 0 then none
  else
    lz77CompressGo buffer (buffer.length + 1)
      ⟨window_size, min_match_len, max_match_len, fun _ => none, fun _ => none⟩ 0 []

/-- `lz77_compress_simple` (the emitted item sequence). -/
def lz77_compress_simple (buffer : List Nat)
    (window_size min_match_len max_match_len : Nat) : Option (List LZ77Data) :=
  (lz77_compress_full buffer window_size min_match_len max_match_len).map Prod.fst

/-- Invariant of the hash-chain index while parsing at position `pos`: every
head entry points at an in-bounds earlier position carrying its key. -/
def FinderInv (fm : LZ77MatchFinder) (buffer : List Nat) (pos : Nat) : Prop :=
  ∀ k q, fm.head_map k = some q →
    q + 3 ≤ buffer.length ∧ q < pos ∧ key_from_bytes buffer q = k

/-! ## LZW (src/lzw.rs) -/

def LZW_MIN_CODE_LEN : Nat := 9
def LZW_MAX_CODE_LEN : Nat := 12
def LZW_MAX_CODE : Nat := 2 ^ LZW_MAX_CODE_LEN
def CLEAR_CODE : Nat := 256
def EOD_CODE : Nat := 257
def START_CODE : Nat := 258

/-- Encoder state of `compress_lzw`.  The dictionary
`Vec<LZWECompressionTableData>` is a dense `4096 × 256` array of
`Option<u16>` indexed by `(code, byte)`; it is modelled as a finite map on
the flat index `code * 256 + byte` (an absent key is the array's `None`).
`writes` reifies, in order, the `(data, bit_num)` arguments of every
`write_bits_u16` call made so far. -/
structure LZWEncState where
  code_len : Nat
  curr_max_code : Nat
  table : Batteries.RBMap Nat Nat compare
  code : Nat
  next_code : Nat
  writes : List (Nat × Nat)

/-- One `for byte in &bytes[1..]` iteration of `compress_lzw`: follow the
dictionary on a hit; on a miss emit the current code, insert, restart from
`byte`, bump the width when `next_code` reaches `curr_max_code`, and emit
`CLEAR` (at the just-incremented width) and reset as soon as the width would
become `MAX_CODE_LEN`. -/
def lzwEncStep (st : LZWEncState) (byte : Nat) : LZWEncState :=
  match st.table.find? (st.code * 256 + byte) with
  | some next => { st with code := next }
  | none =>
    if st.next_code + 1 = st.curr_max_code then
      if st.code_len + 1 = LZW_MAX_CODE_LEN then
        { code_len := LZW_MIN_CODE_LEN, curr_max_code := 2 ^ LZW_MIN_CODE_LEN,
          table := Batteries.RBMap.empty, code := byte, next_code := START_CODE,
          writes := st.writes ++ [(st.code, st.code_len), (CLEAR_CODE, st.code_len + 1)] }
      else
        { code_len := st.code_len + 1, curr_max_code := st.curr_max_code * 2,
          table := st.table.insert (st.code * 256 + byte) st.next_code,
          code := byte, next_code := st.next_code + 1,
          writes := st.writes ++ [(st.code, st.code_len)] }
    else
      { st with
        table := st.table.insert (st.code * 256 + byte) st.next_code,
        code := byte, next_code := st.next_code + 1,
        writes := st.writes ++ [(st.code, st.code_len)] }

/-- Initial encoder state: `code ← bytes[0]`, width `MIN_CODE_LEN`,
`next_code ← START_CODE`, empty dictionary. -/
def lzwEncInit (b0 : Nat) : LZWEncState :=
  ⟨LZW_MIN_CODE_LEN, 2 ^ LZW_MIN_CODE_LEN, Batteries.RBMap.empty, b0, START_CODE, []⟩

/-- `compress_lzw` as the sequence of `write_bits_u16` calls it performs:
the loop over `bytes[1..]`, then the final `code` and `EOD` at the current
width.  `bytes[0]` on an empty input is an out-of-bounds index (a panic),
modelled by `none`. -/
def compress_lzw_writes (bytes : List Nat) : Option (List (Nat × Nat)) :=
  match bytes with
  | [] => none
  | b0 :: rest =>
    let st := rest.foldl lzwEncStep (lzwEncInit b0)
    some (st.writes ++ [(st.code, st.code_len), (EOD_CODE, st.code_len)])

/-- `compress_lzw`: perform the reified writes on a fresh `BitWriter` and
take its bytes. -/
def compress_lzw (bytes : List Nat) : Option (List Nat) :=
  (compress_lzw_writes bytes).map fun ws =>
    (ws.foldl (fun w dc => w.write_bits_u16 dc.1 dc.2) BitWriter.new).get_bytes

/-- Encoder-state invariant holding in every state of a `compress_lzw` run:
the width is between `MIN_CODE_LEN` and `MAX_CODE_LEN - 1`, `curr_max_code`
is `2 ^ code_len`, and `next_code` is strictly below it. -/
def LZWEncInv (st : LZWEncState) : Prop :=
  st.curr_max_code = 2 ^ st.code_len ∧ LZW_MIN_CODE_LEN ≤ st.code_len ∧
  st.code_len ≤ LZW_MAX_CODE_LEN - 1 ∧ st.next_code < st.curr_max_code

instance (st : LZWEncState) : Decidable (LZWEncInv st) := by
  unfold LZWEncInv; infer_instance

/-- An entry of the decoder table (`LZWEDecompressionTableData`). -/
structure LZWDecEntry where
  prev : Nat
  back : Nat
  byte : Nat
deriving DecidableEq

/-- Pointwise update of the decoder table (`Vec` index assignment; every
reachable index is below `MAX_CODE`, where the Rust `Vec` would panic). -/
def updTable (t : Nat → LZWDecEntry) (i : Nat) (e : LZWDecEntry) : Nat → LZWDecEntry :=
  fun j => if j = i then e else t j

/-- `new_lzw_decompression_table`: `MAX_CODE` zeroed entries with
`byte[i] = i` for `i ≤ 255`. -/
def lzwDecInitTable : Nat → LZWDecEntry :=
  fun i => if i < 256 then ⟨0, 0, i⟩ else ⟨0, 0, 0⟩

/-- Decoder state of `decompress_lzw` between codes. -/
structure LZWDecState where
  code_len : Nat
  curr_max_code : Nat
  table : Nat → LZWDecEntry
  next_code : Nat

def lzwDecInitState : LZWDecState :=
  ⟨LZW_MIN_CODE_LEN, 2 ^ LZW_MIN_CODE_LEN, lzwDecInitTable, START_CODE⟩

/-- The chain-reversal loop `while curr >= 256 { … }` of the decoder,
fuelled (`none` = did not exit within `fuel` steps; on reachable states the
`prev` chain strictly decreases, so `MAX_CODE` fuel always suffices). -/
def lzwDecWalkBack : Nat → (Nat → LZWDecEntry) → Nat → Option (Nat × (Nat → LZWDecEntry))
  | 0, _, _ => none
  | fuel + 1, table, curr =>
    if 256 ≤ curr then
      lzwDecWalkBack fuel
        (updTable table ((table curr).prev) { table ((table curr).prev) with back := curr })
        ((table curr).prev)
    else some (curr, table)

/-- The emission loop `while table[curr].back > 0 { … }` plus the final
push, fuelled; clears each `back` pointer as it walks forward.  The exit of
the reversal loop guarantees the first `curr` is below 256, and each
`byte` pushed is a `u8` (the `curr as u8` cast in `table[…].byte = curr as
u8` is exact because that `curr` is below 256). -/
def lzwDecEmit : Nat → (Nat → LZWDecEntry) → Nat → List Nat →
    Option (List Nat × (Nat → LZWDecEntry))
  | 0, _, _, _ => none
  | fuel + 1, table, curr, acc =>
    if 0 < (table curr).back then
      lzwDecEmit fuel (updTable table curr { table curr with back := 0 })
        ((table curr).back) (acc ++ [(table curr).byte])
    else some (acc ++ [(table curr).byte], table)

/-- Result of processing one code in the decoder loop. -/
inductive LZWDecRes where
  | eod
  | cleared (st : LZWDecState)
  | corrupt
  | ok (st : LZWDecState) (out : List Nat)
  | outOfFuel

/-- The body of the `decompress_lzw` loop for one already-read `code`
(src/lzw.rs lines 328–368): terminate on `EOD`; reset on `CLEAR`; `panic!`
(`corrupt`) when `code >= next_code`; otherwise pre-point the incomplete
entry's `prev` at `code`, reverse the chain, set the previous entry's
`byte` to the first byte of the expansion, emit along the reversed chain,
and advance `next_code`, bumping the width when it reaches
`curr_max_code`. -/
def lzwDecProcessCode (st : LZWDecState) (code : Nat) : LZWDecRes :=
  if code = EOD_CODE then LZWDecRes.eod
  else if code = CLEAR_CODE then LZWDecRes.cleared lzwDecInitState
  else if st.next_code ≤ code then LZWDecRes.corrupt
  else
    match lzwDecWalkBack LZW_MAX_CODE
        (updTable st.table st.next_code { st.table st.next_code with prev := code }) code with
    | none => LZWDecRes.outOfFuel
    | some (curr, t2) =>
      match lzwDecEmit LZW_MAX_CODE
          (updTable t2 (st.next_code - 1) { t2 (st.next_code - 1) with byte := curr })
          curr [] with
      | none => LZWDecRes.outOfFuel
      | some (out, t4) =>
        LZWDecRes.ok
          { code_len :=
              if st.curr_max_code ≤ st.next_code + 1 then st.code_len + 1 else st.code_len,
            curr_max_code :=
              if st.curr_max_code ≤ st.next_code + 1 then st.curr_max_code * 2
              else st.curr_max_code,
            table := t4, next_code := st.next_code + 1 } out

/-- The read-decode loop of `decompress_lzw`; each iteration consumes at
least one bit or fails, so `8·|bytes| + 1` fuel suffices.  `none` models the
`unwrap()` panic at end of stream, the `panic!` on a corrupt code, and the
(unreachable) inner-loop fuel exhaustion. -/
def lzwDecLoop : Nat → BitReader → LZWDecState → List Nat → Option (List Nat)
  | 0, _, _, _ => none
  | fuel + 1, reader, st, out =>
    match reader.read_bits_into_u16 st.code_len with
    | none => none
    | some (code, reader') =>
      match lzwDecProcessCode st code with
      | LZWDecRes.eod => some out
      | LZWDecRes.cleared st' => lzwDecLoop fuel reader' st' out
      | LZWDecRes.corrupt => none
      | LZWDecRes.ok st' emitted => lzwDecLoop fuel reader' st' (out ++ emitted)
      | LZWDecRes.outOfFuel => none

/-- `decompress_lzw`. -/
def decompress_lzw (encoded_bytes : List Nat) : Option (List Nat) :=
  lzwDecLoop (encoded_bytes.length * 8 + 1) (BitReader.new encoded_bytes)
    lzwDecInitState []

/-- The encoder state immediately before its first dictionary reset: width
11, `next_code = 2047`, reached after exactly `2047 - 258 = 1789` dictionary
misses from the initial state (e.g. on any input whose consecutive byte
pairs are pairwise distinct, every step is a miss); the table contents are
irrelevant to the reset logic, so the empty map stands for the 1789 entries. -/
def lzwPreResetState : LZWEncState :=
  ⟨11, 2048, Batteries.RBMap.empty, 300, 2047, []⟩

/-! ## Huffman (src/huffman.rs) -/

def HUFFMAN_MAX_SYMBOLS : Nat := 512
def HUFFMAN_MAX_SYMBOLS_SIZE : Nat := 9
def HUFFMAN_CHUNK_SIZE_BITS : Nat := 32
/-- `MAX_CODE_LEN` of src/huffman.rs (the LZW constant of the same name is
`LZW_MAX_CODE_LEN`). -/
def MAX_CODE_LEN : Nat := 12
/-- The normalized codeword space bound `k_max = (1 << MAX_CODE_LEN) - 1`. -/
def K_MAX : Nat := 2 ^ MAX_CODE_LEN - 1

/-- `HuffmanTableData`: a symbol and its level (depth in the tree). -/
structure HuffmanTableData where
  symbol : Nat
  level : Nat
deriving DecidableEq

/-- `HuffmanNode`: a leaf `(freq, symbol)` or an internal node whose
frequency is the sum of its children's (`HuffmanNode::node`). -/
inductive HuffmanNode where
  | leaf (freq : Nat) (symbol : Nat)
  | node (freq : Nat) (left right : HuffmanNode)

def HuffmanNode.freq : HuffmanNode → Nat
  | HuffmanNode.leaf f _ => f
  | HuffmanNode.node f _ _ => f

/-- Rust `HuffmanNode: Ord` is `other.freq.cmp(&self.freq)` (reversed), so
`a <= b` in the heap's order means `b.freq ≤ a.freq`: the max-heap
`BinaryHeap` becomes a min-heap on frequency. -/
def nodeLe (a b : HuffmanNode) : Bool := decide (b.freq ≤ a.freq)

def heapGet (h : List HuffmanNode) (i : Nat) : HuffmanNode :=
  h.getD i (HuffmanNode.leaf 0 0)

def swapL (l : List HuffmanNode) (i j : Nat) : List HuffmanNode :=
  (l.set i (heapGet l j)).set j (heapGet l i)

/-- `BinaryHeap::sift_up` (Rust std), swap formulation: bubble the element at
`pos` towards `start` while it is strictly greater than its parent in the
heap order.  The hole optimization of the Rust source produces the same
array as repeated swaps.  The position at least halves each step, so `pos`
iterations of fuel always suffice. -/
def siftUpGo : Nat → List HuffmanNode → Nat → Nat → List HuffmanNode
  | 0, data, _, _ => data
  | fuel + 1, data, start, pos =>
    if start < pos then
      if nodeLe (heapGet data pos) (heapGet data ((pos - 1) / 2)) then data
      else siftUpGo fuel (swapL data pos ((pos - 1) / 2)) start ((pos - 1) / 2)
    else data

def siftUp (data : List HuffmanNode) (start pos : Nat) : List HuffmanNode :=
  siftUpGo (pos + 1) data start pos

/-- The descend-to-bottom loop of `BinaryHeap::sift_down_to_bottom`: while
both children exist, move to the greater child (ties to the right, per
`child += (get(child) <= get(child+1))`), swapping as we go.  Returns the
final hole position. -/
def siftDownLoop : Nat → List HuffmanNode → Nat → (List HuffmanNode × Nat)
  | 0, data, pos => (data, pos)
  | fuel + 1, data, pos =>
    if 2 * pos + 1 + 1 < data.length then
      siftDownLoop fuel
        (swapL data pos
          (if nodeLe (heapGet data (2 * pos + 1)) (heapGet data (2 * pos + 2)) then
            2 * pos + 2
          else 2 * pos + 1))
        (if nodeLe (heapGet data (2 * pos + 1)) (heapGet data (2 * pos + 2)) then
          2 * pos + 2
        else 2 * pos + 1)
    else (data, pos)

/-- `BinaryHeap::sift_down_to_bottom`: descend to the bottom along the
greater-child path, take the last single child if present, then sift the
displaced element back up from the start position. -/
def siftDownToBottom (data : List HuffmanNode) (pos : Nat) : List HuffmanNode :=
  match siftDownLoop data.length data pos with
  | (d1, p1) =>
    if 2 * p1 + 1 = d1.length - 1 then siftUp (swapL d1 p1 (2 * p1 + 1)) pos (2 * p1 + 1)
    else siftUp d1 pos p1

/-- `BinaryHeap::push`. -/
def binaryHeapPush (data : List HuffmanNode) (item : HuffmanNode) : List HuffmanNode :=
  siftUp (data ++ [item]) 0 data.length

/-- `BinaryHeap::pop`: remove the last element; if the heap is still
nonempty, swap it with the root and sift down, returning the old root. -/
def binaryHeapPop (data : List HuffmanNode) : Option (HuffmanNode × List HuffmanNode) :=
  if data.isEmpty then none
  else
    if (data.take (data.length - 1)).isEmpty then
      some (heapGet data (data.length - 1), [])
    else
      some (heapGet data 0,
        siftDownToBottom
          ((data.take (data.length - 1)).set 0 (heapGet data (data.length - 1))) 0)

/-- `HuffmanNode::leaves_helper`: depth-first collection of leaves with their
levels (left subtree first, children one level deeper). -/
def leavesHelper : HuffmanNode → Nat → List HuffmanTableData
  | HuffmanNode.leaf _ s, level => [⟨s, level⟩]
  | HuffmanNode.node _ l r, level => leavesHelper l (level + 1) ++ leavesHelper r (level + 1)

/-- `HuffmanNode::leaves`: a single-leaf root gets level 1 explicitly;
otherwise the helper starts at level 0. -/
def HuffmanNode.leaves : HuffmanNode → List HuffmanTableData
  | HuffmanNode.leaf _ s => [⟨s, 1⟩]
  | HuffmanNode.node f l r => leavesHelper (HuffmanNode.node f l r) 0

/-- The `while node_heap.len() > 1` combine loop of `build_huffman_table`;
each iteration shrinks the heap by one, so `length + 1` fuel suffices. -/
def huffmanCombineGo : Nat → List HuffmanNode → Option (List HuffmanNode)
  | 0, _ => none
  | fuel + 1, heap =>
    if 1 < heap.length then
      match binaryHeapPop heap with
      | none => none
      | some (left, h1) =>
        match binaryHeapPop h1 with
        | none => none
        | some (right, h2) =>
          huffmanCombineGo fuel
            (binaryHeapPush h2
              (HuffmanNode.node ((left.freq + right.freq) % U64_MOD) left right))
    else some heap

/-- Rust's sort order on `HuffmanTableData` (`Ord` compares only `level`). -/
def levelLeR (a b : HuffmanTableData) : Prop := a.level ≤ b.level

instance : DecidableRel levelLeR := fun a b => Nat.decLe a.level b.level

instance : IsTotal HuffmanTableData levelLeR := ⟨fun a b => Nat.le_total a.level b.level⟩

instance : IsTrans HuffmanTableData levelLeR := ⟨fun _ _ _ => Nat.le_trans⟩

/-- The clamp-and-sum loop of `limit_huffman_table_code_sizes`: clamp every
level to `MAX_CODE_LEN` and accumulate `k = Σ 2^(MAX_CODE_LEN − level)`. -/
def clampLoop : List HuffmanTableData → (List HuffmanTableData × Nat)
  | [] => ([], 0)
  | e :: rest =>
    match clampLoop rest with
    | (rest2, k) =>
      (⟨e.symbol, min e.level MAX_CODE_LEN⟩ :: rest2,
       k + 2 ^ (MAX_CODE_LEN - min e.level MAX_CODE_LEN))

/-- The inner `while self.table[i].level < MAX_CODE_LEN` loop of the
flattening pass: raise one entry's level to `MAX_CODE_LEN`, decrementing `k`
by the weight difference at each step (`MAX_CODE_LEN` fuel suffices). -/
def raiseLoop : Nat → Nat → Nat → (Nat × Nat)
  | 0, level, k => (level, k)
  | fuel + 1, level, k =>
    if level < MAX_CODE_LEN then
      raiseLoop fuel (level + 1) (k - 2 ^ (MAX_CODE_LEN - (level + 1)))
    else (level, k)

/-- The flattening pass `for i in (0..len).rev()`, applied to the reversed
table: stop as soon as `k ≤ K_MAX`, else raise the entry fully to
`MAX_CODE_LEN` and continue. -/
def flattenRev : List HuffmanTableData → Nat → (List HuffmanTableData × Nat)
  | [], k => ([], k)
  | e :: rest, k =>
    if k ≤ K_MAX then (e :: rest, k)
    else
      match raiseLoop MAX_CODE_LEN e.level k with
      | (lv, k2) =>
        match flattenRev rest k2 with
        | (rest2, k3) => (⟨e.symbol, lv⟩ :: rest2, k3)

/-- The inner `while k + (1 << (MAX_CODE_LEN - level)) <= k_max` loop of the
redistribution pass: lower one entry's level while the Kraft budget allows,
adding the weight growth to `k` (`level + 1` fuel suffices since the level
decreases and the guard fails at level 0). -/
def lowerLoop : Nat → Nat → Nat → (Nat × Nat)
  | 0, level, k => (level, k)
  | fuel + 1, level, k =>
    if k + 2 ^ (MAX_CODE_LEN - level) ≤ K_MAX then
      lowerLoop fuel (level - 1) (k + 2 ^ (MAX_CODE_LEN - level))
    else (level, k)

/-- The redistribution pass `for i in 0..len`. -/
def redistribute : List HuffmanTableData → Nat → (List HuffmanTableData × Nat)
  | [], k => ([], k)
  | e :: rest, k =>
    match lowerLoop (e.level + 1) e.level k with
    | (lv, k2) =>
      match redistribute rest k2 with
      | (rest2, k3) => (⟨e.symbol, lv⟩ :: rest2, k3)

/-- `HuffmanEncoder::limit_huffman_table_code_sizes`.  The entry
`assert!((len as f32).log2().ceil() as usize <= MAX_CODE_LEN)` is modelled by
the equivalent guard `len ≤ 2^MAX_CODE_LEN`: every `len` in range is exact in
`f32`, for `len ≥ 1` one has `ceil(log2 len) ≤ 12 ↔ len ≤ 2^12`, and for
`len = 0` the cast of `−∞` saturates to `0 ≤ 12`, matching `0 ≤ 2^12`.  A
failed assert is `none`. -/
def limit_huffman_table_code_sizes (table : List HuffmanTableData) :
    Option (List HuffmanTableData) :=
  if table.length ≤ 2 ^ MAX_CODE_LEN then
    match clampLoop table with
    | (t1, k1) =>
      match flattenRev t1.reverse k1 with
      | (t2r, k2) =>
        match redistribute t2r.reverse k2 with
        | (t3, _) => some t3
  else none

/-- `HuffmanEncoder::build_huffman_table` up to and including the length
limiting (the subsequent `build_huffman_code_map` does not change the
table): push one leaf per nonzero frequency, combine to a single tree, take
its leaves depth-first, sort stably by level (`HuffmanTableData: Ord`
compares levels only; `List.insertionSort` is a stable sort, hence
extensionally identical to Rust's stable `slice::sort`), and limit the code
sizes.  `none` models the `unwrap` panic on an all-zero histogram and the
failed assert inside the limiter. -/
def huffmanLeafHeap (freq : List Nat) : List HuffmanNode :=
  (List.range freq.length).foldl
    (fun h byte =>
      if 0 < freq.getD byte 0 then
        binaryHeapPush h (HuffmanNode.leaf (freq.getD byte 0) byte)
      else h) []

def buildHuffmanTable (freq : List Nat) : Option (List HuffmanTableData) :=
  match (huffmanCombineGo ((huffmanLeafHeap freq).length + 1)
      (huffmanLeafHeap freq)).bind binaryHeapPop with
  | none => none
  | some (root, _) =>
    limit_huffman_table_code_sizes (List.insertionSort levelLeR root.leaves)

/-- `HuffmanEncoder::build_huffman_code_map`: canonical code assignment over
the (sorted) table, as a map from symbol to `(code, length)`. -/
def build_huffman_code_map (table : List HuffmanTableData) :
    Nat → Option (Nat × Nat) :=
  (table.foldl
    (fun (acc : (Nat → Option (Nat × Nat)) × Nat × Nat) data =>
      match acc with
      | (m, code, last_level) =>
        match
          (if last_level ≠ data.level then
            (if last_level ≠ 0 then (code + 1) <<< (data.level - last_level) else code,
             data.level)
          else (code + 1, last_level)) with
        | (code2, last2) =>
          ((fun s => if s = data.symbol then some (code2, data.level) else m s),
           code2, last2))
    ((fun _ => none), 0, 0)).1

/-- `HuffmanEncoder::build_frequency_table` over a `max_symbols`-element
histogram. -/
def build_frequency_table (max_symbols : Nat) (symbols : List Nat) : List Nat :=
  symbols.foldl (fun t s => t.set s (t.getD s 0 + 1)) (List.replicate max_symbols 0)

/-- `HuffmanEncoder::write_huffman_table`: symbol count, maximum level (the
value of `iter().max().unwrap().level`, whose `unwrap` panics on an empty
table), then each `(symbol, level − 1)` pair; `bits_per_level` uses the same
exact `f32` ceil-log2 as the limiter. -/
def write_huffman_table (table : List HuffmanTableData) (writer : BitWriter) :
    Option BitWriter :=
  if HUFFMAN_MAX_SYMBOLS < table.length then none
  else
    match table with
    | [] => none
    | _ =>
      match ((table.map HuffmanTableData.level).foldl Nat.max 0) with
      | max_level =>
        some (table.foldl
          (fun w data =>
            (w.write_bits_u32 data.symbol HUFFMAN_MAX_SYMBOLS_SIZE).write_bits_u32
              (data.level - 1) (max (Nat.clog 2 max_level) 1))
          ((writer.write_bits_u32 table.length HUFFMAN_MAX_SYMBOLS_SIZE).write_bits_u32
            max_level 4))

/-- `HuffmanEncoder::encode_symbols`: the chunk length in
`HUFFMAN_CHUNK_SIZE_BITS` bits, then each symbol's code (symbols without a
code are skipped, per the `if let`). -/
def encode_symbols (code_map : Nat → Option (Nat × Nat)) (symbols : List Nat)
    (writer : BitWriter) : BitWriter :=
  symbols.foldl
    (fun w s =>
      match code_map s with
      | some (code, length) => w.write_bits_u32 code length
      | none => w)
    (writer.write_bits_u32 symbols.length HUFFMAN_CHUNK_SIZE_BITS)

/-- `HuffmanEncoder::encode_chunk` (with `max_symbols = HUFFMAN_MAX_SYMBOLS`,
as the byte-oriented entry points construct the encoder). -/
def encode_chunk (chunk : List Nat) (writer : BitWriter) : Option BitWriter :=
  match buildHuffmanTable (build_frequency_table HUFFMAN_MAX_SYMBOLS chunk) with
  | none => none
  | some table =>
    match write_huffman_table table writer with
    | none => none
    | some w2 => some (encode_symbols (build_huffman_code_map table) chunk w2)

/-- The `for i in (0..bytes.len()).step_by(chunk_size)` loop of
`encode_all`. -/
def encodeAllGo (chunk_size : Nat) (hcs : 0 < chunk_size) (bytes : List Nat) :
    Nat → BitWriter → Option BitWriter := fun i writer =>
  if i < bytes.length then
    match encode_chunk ((bytes.drop i).take chunk_size) writer with
    | none => none
    | some w2 => encodeAllGo chunk_size hcs bytes (i + chunk_size) w2
  else some writer
termination_by i => bytes.length - i
decreasing_by omega

/-- `HuffmanEncoder::encode_all`: `chunk_size` is clamped to the input
length; `Range::step_by` panics (`assert!(step != 0)`) when the clamped
chunk size is zero — in particular on every empty input. -/
def encode_all (bytes : List Nat) (chunk_size : Nat) (writer : BitWriter) :
    Option BitWriter :=
  if hcs : 0 < min chunk_size bytes.length then
    encodeAllGo (min chunk_size bytes.length) hcs bytes 0 writer
  else none

/-- `HuffmanEncoder::bytes_to_symbols` (u8 → u16 widening; identity on the
`Nat` model). -/
def bytes_to_symbols (bytes : List Nat) : List Nat := bytes.map (fun b => b)

/-- `HuffmanEncoder::encode_all_bytes`. -/
def encode_all_bytes (bytes : List Nat) (chunk_size : Nat) (writer : BitWriter) :
    Option BitWriter :=
  encode_all (bytes_to_symbols bytes) chunk_size writer

/-- The normalized Kraft sum `Σ 2^(MAX_CODE_LEN − level)` of a table. -/
def kraftSum (t : List HuffmanTableData) : Nat :=
  (t.map (fun e => 2 ^ (MAX_CODE_LEN - e.level))).sum

/-- Frequency histogram (an encoder with `max_symbols = 4`) used to exhibit
the table order: symbols 0,1,2,3 with frequencies 5,6,3,4 — the tree pairs
(2,3) and (0,1), placing symbols 2,3 before 0,1 at equal depth. -/
def c9Freq : List Nat := [5, 6, 3, 4]

/-- Frequency histogram with two equiprobable symbols. -/
def c8Freq : List Nat := [1, 1]

/-! ## THEOREMS: bit-level I/O -/

/-- `BitReader.refillGo` never changes `remaining_bits`. -/
theorem BitReader.refillGo_remaining (bs : List Nat) :
    ∀ br : BitReader, (BitReader.refillGo bs br).remaining_bits = br.remaining_bits := by
  induction bs with
  | nil => intro br; rfl
  | cons byte rest ih =>
    intro br
    rw [BitReader.refillGo]
    split
    · rw [ih]
    · rfl

/-- `BitReader.refill` never changes `remaining_bits`. -/
theorem BitReader.refill_remaining (br : BitReader) :
    (BitReader.refill br).remaining_bits = br.remaining_bits :=
  BitReader.refillGo_remaining br.bytes br

/-- C4 (counterexample): on a one-byte stream, `read_bits_into_u32 9` does not
fail even though only 8 bits remain; it returns the value 255 assembled from
those 8 bits, contradicting the claim that it fails with `UnexpectedEof`
whenever fewer than `n` bits remain. -/
theorem read_bits_into_u32_saturates_at_eof :
    (BitReader.new [255]).remaining_bits = 8 ∧
    BitReader.read_bits_into_u32 (BitReader.new [255]) 9 =
      some (255, ⟨0, 0, 0, 64, []⟩) := by
  constructor
  · rfl
  · rw [BitReader.read_bits_into_u32]
    norm_num [BitReader.new, BitReader.refill, BitReader.refillGo]
    rw [BitReader.read_bits_into_u32]
    norm_num [BitReader.refill, BitReader.refillGo, Nat.shiftLeft_eq, U64_MOD]

/-- C4 (amended): for `n ≤ 32`, `read_bits_into_u32 n` returns `none` exactly
when zero bits remain; when bits remain and `n = 0` it returns zero; when
`0 < remaining_bits < n` it saturates, returning the result of reading the
remaining bits; and when `0 < n ≤ remaining_bits` it returns the top `n`
accumulator bits and `remaining_bits` decreases by exactly `n`. -/
theorem read_bits_into_u32_characterization (br : BitReader) (n : Nat) (h : n ≤ 32) :
    (br.read_bits_into_u32 n = none ↔ br.remaining_bits = 0) ∧
    (br.remaining_bits ≠ 0 → n = 0 → br.read_bits_into_u32 n = some (0, br)) ∧
    (br.remaining_bits ≠ 0 → br.remaining_bits < n →
      br.read_bits_into_u32 n = br.read_bits_into_u32 br.remaining_bits) ∧
    (br.remaining_bits ≠ 0 → 0 < n → n ≤ br.remaining_bits →
      ∃ br2, br.read_bits_into_u32 n = some (br.buffer / 2 ^ (64 - n), br2) ∧
        br2.remaining_bits = br.remaining_bits - n) := by
  have hcore : ∀ m : Nat, m ≤ 32 → br.remaining_bits ≠ 0 → 0 < m →
      m ≤ br.remaining_bits →
      ∃ br2, br.read_bits_into_u32 m = some (br.buffer / 2 ^ (64 - m), br2) ∧
        br2.remaining_bits = br.remaining_bits - m := by
    intro m hm hr hm0 hmr
    rw [BitReader.read_bits_into_u32]
    rw [if_neg (show ¬ 32 < m by omega), if_neg hr,
      dif_neg (show ¬ br.remaining_bits < m by omega), if_neg (show ¬ m = 0 by omega)]
    exact ⟨_, rfl, by rw [BitReader.refill_remaining]⟩
  refine ⟨⟨?_, ?_⟩, ?_, ?_, ?_⟩
  · intro hnone
    by_contra hr
    rcases Nat.lt_or_ge br.remaining_bits n with hlt | hge
    · rw [BitReader.read_bits_into_u32, if_neg (show ¬ 32 < n by omega), if_neg hr,
        dif_pos hlt] at hnone
      obtain ⟨br2, heq, _⟩ := hcore br.remaining_bits (by omega) hr (by omega) (le_refl _)
      rw [heq] at hnone
      exact Option.noConfusion hnone
    · rcases Nat.eq_zero_or_pos n with hn0 | hn0
      · rw [BitReader.read_bits_into_u32, if_neg (show ¬ 32 < n by omega), if_neg hr,
          dif_neg (show ¬ br.remaining_bits < n by omega), if_pos hn0] at hnone
        exact Option.noConfusion hnone
      · obtain ⟨br2, heq, _⟩ := hcore n h hr hn0 hge
        rw [heq] at hnone
        exact Option.noConfusion hnone
  · intro hr
    rw [BitReader.read_bits_into_u32]
    simp [hr, show ¬ 32 < n by omega]
  · intro hr hn
    subst hn
    rw [BitReader.read_bits_into_u32]
    simp [hr]
  · intro hr hlt
    rw [BitReader.read_bits_into_u32]
    rw [if_neg (show ¬ 32 < n by omega), if_neg hr, dif_pos hlt]
  · intro hr hn hle
    exact hcore n h hr hn hle

/-- C4 (witness): the characterization applied to a concrete two-byte
reader with `n = 8`. -/
theorem read_bits_into_u32_characterization_witness :
    (BitReader.read_bits_into_u32 (BitReader.new [170, 85]) 8 = none ↔
      (BitReader.new [170, 85]).remaining_bits = 0) ∧
    ((BitReader.new [170, 85]).remaining_bits ≠ 0 → 8 = 0 →
      BitReader.read_bits_into_u32 (BitReader.new [170, 85]) 8 =
        some (0, BitReader.new [170, 85])) ∧
    ((BitReader.new [170, 85]).remaining_bits ≠ 0 →
      (BitReader.new [170, 85]).remaining_bits < 8 →
      BitReader.read_bits_into_u32 (BitReader.new [170, 85]) 8 =
        BitReader.read_bits_into_u32 (BitReader.new [170, 85])
          (BitReader.new [170, 85]).remaining_bits) ∧
    ((BitReader.new [170, 85]).remaining_bits ≠ 0 → 0 < 8 →
      8 ≤ (BitReader.new [170, 85]).remaining_bits →
      ∃ br2, BitReader.read_bits_into_u32 (BitReader.new [170, 85]) 8 =
          some ((BitReader.new [170, 85]).buffer / 2 ^ (64 - 8), br2) ∧
        br2.remaining_bits = (BitReader.new [170, 85]).remaining_bits - 8) :=
  read_bits_into_u32_characterization (BitReader.new [170, 85]) 8 (by decide)

/-- `BitReader.refill` on a drained backing slice is the identity. -/
theorem BitReader.refill_of_bytes_nil (br : BitReader) (h : br.bytes = []) :
    BitReader.refill br = br := by
  rw [BitReader.refill, h]
  rfl

/-- `empty_bits 0` with positive fuel and a drained backing slice returns
normally, preserving the three counters relevant to the divergence argument. -/
theorem empty_bits_zero_request (f : Nat) (br : BitReader) (hbytes : br.bytes = []) :
    ∃ br2, BitReader.empty_bits (f + 1) br 0 = ERes.ok br2 ∧
      br2.remaining_bits = br.remaining_bits ∧
      br2.bits_in_buffer = br.bits_in_buffer ∧ br2.bytes = [] := by
  rw [BitReader.empty_bits]
  rw [if_neg (show ¬ br.remaining_bits < 0 by omega)]
  rw [ERes.andThen_ok]
  rw [if_neg (show ¬ br.bits_in_buffer < 0 by omega)]
  rw [ERes.andThen_ok]
  rw [if_neg (show ¬ (64 ≤ 0 ∨ br.bits_in_buffer < 0 ∨ br.remaining_bits < 0) by omega)]
  refine ⟨_, rfl, ?_, ?_, ?_⟩ <;>
    rw [BitReader.refill_of_bytes_nil _ (by simpa using hbytes)] <;> simp [hbytes]

/-- Helper for C10: from a fully drained reader (`remaining_bits = 0`,
`bits_in_buffer = 0`, no backing bytes), `empty_bits` with a positive request
never returns: every fuel bound is exhausted. -/
theorem empty_bits_drained_diverges (fuel : Nat) :
    ∀ (br : BitReader) (n : Nat), br.remaining_bits = 0 → br.bits_in_buffer = 0 →
      br.bytes = [] → 0 < n → BitReader.empty_bits fuel br n = ERes.outOfFuel := by
  induction fuel with
  | zero => intro br n _ _ _ _; rfl
  | succ f ih =>
    intro br n hr hb hbytes hn
    rw [BitReader.empty_bits]
    rw [if_pos (show br.remaining_bits < n by omega), hr]
    cases f with
    | zero => rfl
    | succ f' =>
      obtain ⟨br2, h2, h2r, h2b, h2y⟩ := empty_bits_zero_request f' br hbytes
      rw [h2, ERes.andThen_ok]
      rw [if_pos (show br2.bits_in_buffer < n by omega), h2b, hb]
      obtain ⟨br3, h3, h3r, h3b, h3y⟩ := empty_bits_zero_request f' br2 h2y
      rw [h3, ERes.andThen_ok]
      rw [ih br3 (n - br3.bits_in_buffer) (by omega) (by omega) h3y (by omega)]
      rfl

set_option maxRecDepth 4096 in
/-- C10 (counterexample): on a freshly constructed one-byte reader asked for
9 bits (one more than remain), `empty_bits` exhausts any fuel bound instead of
panicking: the modelled run never reaches the counter subtraction that the
claim says underflows (a fuel bound of 100 shown here; the general statement
for every fuel is `empty_bits_characterization`). -/
theorem empty_bits_over_request_runs_out_of_fuel :
    (BitReader.new [0]).remaining_bits < 9 ∧
    BitReader.empty_bits 100 (BitReader.new [0]) 9 = ERes.outOfFuel := by decide

/-- Drain-all helper: `empty_bits remaining_bits` on a well-formed reader
whose backing slice is drained and whose buffer is not completely full
empties the reader in one fall-through pass. -/
theorem empty_bits_drain_all (f : Nat) (br : BitReader) (hwf : br.WF)
    (hbytes : br.bytes = []) (hb : br.bits_in_buffer < 64) :
    ∃ br2, BitReader.empty_bits (f + 1) br br.remaining_bits = ERes.ok br2 ∧
      br2.remaining_bits = 0 ∧ br2.bits_in_buffer = 0 ∧ br2.bytes = [] := by
  obtain ⟨_, _, hrem, _⟩ := hwf
  rw [hbytes] at hrem
  simp only [List.length_nil, Nat.mul_zero, Nat.add_zero] at hrem
  rw [BitReader.empty_bits]
  rw [if_neg (show ¬ br.remaining_bits < br.remaining_bits by omega), ERes.andThen_ok]
  rw [if_neg (show ¬ br.bits_in_buffer < br.remaining_bits by omega), ERes.andThen_ok]
  rw [if_neg (show ¬ (64 ≤ br.remaining_bits ∨ br.bits_in_buffer < br.remaining_bits ∨
    br.remaining_bits < br.remaining_bits) by omega)]
  refine ⟨_, rfl, ?_, ?_, ?_⟩ <;>
    rw [BitReader.refill_of_bytes_nil _ (by simpa using hbytes)] <;> simp [hbytes, hrem]

/-- C10 (amended): `empty_bits` is safe only under the stronger precondition
`n ≤ bits_in_buffer` (which well-formedness guarantees whenever
`n ≤ min(remaining_bits, 57)`, covering every call the codecs make) together
with `n < 64`; it then advances the cursor by exactly `n` bits.  When `n`
exceeds `remaining_bits` on a reader whose backing slice is drained, the
clamping guard recurses without returning and the recursion repeats the same
arguments forever — the call never terminates (a stack overflow in practice),
and the counter subtraction the claim blames is never reached, for any fuel. -/
theorem empty_bits_characterization (br : BitReader) (n fuel : Nat) (hwf : br.WF) :
    (n ≤ br.bits_in_buffer → n < 64 →
      ∃ br2, BitReader.empty_bits (fuel + 1) br n = ERes.ok br2 ∧
        br2.remaining_bits = br.remaining_bits - n) ∧
    (br.bytes = [] → br.bits_in_buffer < 64 → br.remaining_bits < n →
      BitReader.empty_bits fuel br n = ERes.outOfFuel) := by
  constructor
  · intro hb h64
    have hrem : n ≤ br.remaining_bits := by
      obtain ⟨_, _, hrem, _⟩ := hwf
      omega
    rw [BitReader.empty_bits]
    rw [if_neg (show ¬ br.remaining_bits < n by omega), ERes.andThen_ok]
    rw [if_neg (show ¬ br.bits_in_buffer < n by omega), ERes.andThen_ok]
    rw [if_neg (show ¬ (64 ≤ n ∨ br.bits_in_buffer < n ∨ br.remaining_bits < n) by omega)]
    exact ⟨_, rfl, by rw [BitReader.refill_remaining]⟩
  · intro hbytes hb hover
    cases fuel with
    | zero => rfl
    | succ f =>
      rw [BitReader.empty_bits]
      rw [if_pos (show br.remaining_bits < n by omega)]
      cases f with
      | zero => rfl
      | succ f' =>
        obtain ⟨br1, h1, h1r, h1b, h1y⟩ := empty_bits_drain_all f' br hwf hbytes hb
        rw [h1, ERes.andThen_ok]
        rw [if_pos (show br1.bits_in_buffer < n by omega), h1b]
        obtain ⟨br2, h2, h2r, h2b, h2y⟩ := empty_bits_zero_request f' br1 h1y
        rw [h2, ERes.andThen_ok]
        rw [empty_bits_drained_diverges (f' + 1) br2 (n - br2.bits_in_buffer)
          (by omega) (by omega) h2y (by omega)]
        rfl

/-- C10 (witness): the characterization applied to a freshly constructed
one-byte reader with `n = 3` and fuel 0. -/
theorem empty_bits_characterization_witness :
    (3 ≤ (BitReader.new [7]).bits_in_buffer → 3 < 64 →
      ∃ br2, BitReader.empty_bits (0 + 1) (BitReader.new [7]) 3 = ERes.ok br2 ∧
        br2.remaining_bits = (BitReader.new [7]).remaining_bits - 3) ∧
    ((BitReader.new [7]).bytes = [] → (BitReader.new [7]).bits_in_buffer < 64 →
      (BitReader.new [7]).remaining_bits < 3 →
      BitReader.empty_bits 0 (BitReader.new [7]) 3 = ERes.outOfFuel) :=
  empty_bits_characterization (BitReader.new [7]) 3 0 (by decide)

/-! ## THEOREMS: LZ77 -/

theorem commonLen_le_left : ∀ xs ys : List Nat, commonLen xs ys ≤ xs.length := by
  intro xs
  induction xs with
  | nil => intro ys; cases ys <;> simp [commonLen]
  | cons x xs ih =>
    intro ys
    cases ys with
    | nil => simp [commonLen]
    | cons y ys =>
      rw [commonLen]
      split
      · simpa using ih ys
      · simp

theorem commonLen_le_right : ∀ xs ys : List Nat, commonLen xs ys ≤ ys.length := by
  intro xs
  induction xs with
  | nil => intro ys; cases ys <;> simp [commonLen]
  | cons x xs ih =>
    intro ys
    cases ys with
    | nil => simp [commonLen]
    | cons y ys =>
      rw [commonLen]
      split
      · simpa using ih ys
      · simp

theorem commonLen_getD : ∀ (xs ys : List Nat) (i : Nat), i < commonLen xs ys →
    xs.getD i 0 = ys.getD i 0 := by
  intro xs
  induction xs with
  | nil => intro ys i h; cases ys <;> simp [commonLen] at h
  | cons x xs ih =>
    intro ys i h
    cases ys with
    | nil => simp [commonLen] at h
    | cons y ys =>
      rw [commonLen] at h
      split at h
      · cases i with
        | zero => simpa using (by assumption : x = y)
        | succ j => exact ih ys j (by omega)
      · omega

theorem getD_drop (l : List Nat) (s i : Nat) :
    (l.drop s).getD i 0 = l.getD (s + i) 0 := by
  rw [List.getD_eq_getElem?_getD, List.getD_eq_getElem?_getD, List.getElem?_drop]

theorem getD_take_drop (l : List Nat) (s t i : Nat) (h : i < t) :
    ((l.drop s).take t).getD i 0 = l.getD (s + i) 0 := by
  rw [List.getD_eq_getElem?_getD, List.getD_eq_getElem?_getD, List.getElem?_take,
    if_pos h, List.getElem?_drop]

theorem getD_take (l : List Nat) (t i : Nat) (h : i < t) :
    (l.take t).getD i 0 = l.getD i 0 := by
  rw [List.getD_eq_getElem?_getD, List.getD_eq_getElem?_getD, List.getElem?_take, if_pos h]

theorem take_getD_succ (l : List Nat) (n : Nat) (h : n < l.length) :
    l.take n ++ [l.getD n 0] = l.take (n + 1) := by
  rw [List.take_succ, List.getElem?_eq_getElem h, List.getD_eq_getElem?_getD,
    List.getElem?_eq_getElem h]
  rfl

/-- `insert` rewrites only the maps; the parameters are untouched. -/
theorem insert_params (fm : LZ77MatchFinder) (buffer : List Nat) (pos : Nat) :
    (fm.insert buffer pos).window_size = fm.window_size ∧
    (fm.insert buffer pos).min_match_len = fm.min_match_len ∧
    (fm.insert buffer pos).max_match_len = fm.max_match_len := by
  rcases h : fm.head_map (key_from_bytes buffer pos) with _ | head <;>
    simp [LZ77MatchFinder.insert, h]

/-- The head map after `insert buffer pos` maps the key at `pos` to `pos` and
is otherwise unchanged. -/
theorem insert_head_map (fm : LZ77MatchFinder) (buffer : List Nat) (pos : Nat) (k : LZ77MapKey) :
    (fm.insert buffer pos).head_map k =
      if k = key_from_bytes buffer pos then some pos else fm.head_map k := by
  rcases h : fm.head_map (key_from_bytes buffer pos) with _ | head <;>
    simp [LZ77MatchFinder.insert, h]

theorem finderInv_insert (fm : LZ77MatchFinder) (buffer : List Nat) (pos : Nat)
    (hinv : FinderInv fm buffer pos) (hpos : pos + 3 ≤ buffer.length) :
    FinderInv (fm.insert buffer pos) buffer (pos + 1) := by
  intro k q hq
  rw [insert_head_map] at hq
  by_cases hk : k = key_from_bytes buffer pos
  · rw [if_pos hk] at hq
    obtain rfl : pos = q := by injection hq
    exact ⟨hpos, by omega, hk.symm⟩
  · rw [if_neg hk] at hq
    obtain ⟨h1, h2, h3⟩ := hinv k q hq
    exact ⟨h1, by omega, h3⟩

theorem finderInv_mono (fm : LZ77MatchFinder) (buffer : List Nat) (pos pos' : Nat)
    (hinv : FinderInv fm buffer pos) (h : pos ≤ pos') : FinderInv fm buffer pos' := by
  intro k q hq
  obtain ⟨h1, h2, h3⟩ := hinv k q hq
  exact ⟨h1, by omega, h3⟩

/-- Second iteration of the candidate walk: with `match_num = 1` the loop
stops before examining the candidate (`match_num + 1 > MAX_MATCH_NUM`). -/
theorem findMatchLoop_stop (fm : LZ77MatchFinder) (buffer : List Nat)
    (pos min_pos fuel l o : Nat) (opt : Option Nat) :
    findMatchLoop fm buffer pos min_pos (fuel + 1) opt 1 l o = some (l, o) := by
  cases opt with
  | none => rfl
  | some next =>
    rw [findMatchLoop]
    split
    · rfl
    · rw [if_pos (show MAX_MATCH_NUM < 1 + 1 by norm_num [MAX_MATCH_NUM])]

/-- First iteration of the candidate walk on head candidate `q` in window:
the loop result is the 3-extended common-run length against `q` and offset
`pos - q`. -/
theorem findMatchLoop_first (fm : LZ77MatchFinder) (buffer : List Nat)
    (pos min_pos fuel : Nat) (q : Nat) (hq : ¬ q < min_pos)
    (hmax : 3 ≤ fm.max_match_len) :
    findMatchLoop fm buffer pos min_pos (fuel + 1 + 1) (some q) 0 0 0 =
      some (commonLen ((buffer.drop (pos + 3)).take (fm.max_match_len - 3))
          (buffer.drop (q + 3)) + 3, pos - q) := by
  rw [findMatchLoop, if_neg hq,
    if_neg (show ¬ MAX_MATCH_NUM < 0 + 1 by norm_num [MAX_MATCH_NUM])]
  have hml : fm.match_len buffer (pos + 3) (q + 3) =
      some (commonLen ((buffer.drop (pos + 3)).take (fm.max_match_len - 3))
        (buffer.drop (q + 3))) := by
    rw [LZ77MatchFinder.match_len, checkedSub, if_pos hmax]
    rfl
  rw [hml]
  show findMatchLoop fm buffer pos min_pos (fuel + 1) (fm.next_map q) (0 + 1)
      (if 0 < commonLen ((buffer.drop (pos + 3)).take (fm.max_match_len - 3))
          (buffer.drop (q + 3)) + 3 then
        commonLen ((buffer.drop (pos + 3)).take (fm.max_match_len - 3))
          (buffer.drop (q + 3)) + 3
      else 0)
      (if 0 < commonLen ((buffer.drop (pos + 3)).take (fm.max_match_len - 3))
          (buffer.drop (q + 3)) + 3 then pos - q else 0) = _
  rw [if_pos (by omega), if_pos (by omega)]
  exact findMatchLoop_stop fm buffer pos min_pos fuel _ _ _

/-- Characterization of `find_match` under the index invariant: it succeeds
(for `max_match_len ≥ 3`), inserts `pos`, and any emitted back-reference
`(L, O)` is genuine: `3 ≤ L`, `1 ≤ O ≤ pos`, it stays in bounds, and the `L`
bytes at `pos` equal the `L` bytes at `pos - O`. -/
theorem find_match_spec (fm : LZ77MatchFinder) (buffer : List Nat) (pos : Nat)
    (hmin : 1 ≤ fm.min_match_len) (hmax : 3 ≤ fm.max_match_len)
    (hinv : FinderInv fm buffer pos) (hpos : pos + 3 < buffer.length) :
    ∃ d, fm.find_match buffer pos = some (d, fm.insert buffer pos) ∧
      (d = LZ77Data.Literal (buffer.getD pos 0) ∨
       ∃ L O, d = LZ77Data.Match L O ∧ 3 ≤ L ∧ 1 ≤ O ∧ O ≤ pos ∧
         pos + L ≤ buffer.length ∧
         ∀ j, j < L → buffer.getD (pos - O + j) 0 = buffer.getD (pos + j) 0) := by
  have hkey : ∀ L0 O0 : Nat,
      findMatchLoop fm buffer pos
        (if pos < fm.window_size then 0 else pos - fm.window_size) (MAX_MATCH_NUM + 2)
        (fm.head_map (key_from_bytes buffer pos)) 0 0 0 = some (L0, O0) →
      fm.find_match buffer pos =
        some (if fm.min_match_len ≤ L0 ∧ fm.min_match_len ≤ O0 then
            LZ77Data.Match L0 O0
          else LZ77Data.Literal (buffer.getD pos 0), fm.insert buffer pos) := by
    intro L0 O0 hres
    rw [LZ77MatchFinder.find_match, hres]
  cases hh : fm.head_map (key_from_bytes buffer pos) with
  | none =>
    have hres : findMatchLoop fm buffer pos
        (if pos < fm.window_size then 0 else pos - fm.window_size) (MAX_MATCH_NUM + 2)
        (fm.head_map (key_from_bytes buffer pos)) 0 0 0 = some (0, 0) := by
      rw [hh]; rfl
    refine ⟨_, hkey 0 0 hres, Or.inl ?_⟩
    rw [if_neg (show ¬ (fm.min_match_len ≤ 0 ∧ fm.min_match_len ≤ 0) by omega)]
  | some q =>
    obtain ⟨hq3, hqpos, hqkey⟩ := hinv _ _ hh
    by_cases hqm : q < if pos < fm.window_size then 0 else pos - fm.window_size
    · have hres : findMatchLoop fm buffer pos
          (if pos < fm.window_size then 0 else pos - fm.window_size) (MAX_MATCH_NUM + 2)
          (fm.head_map (key_from_bytes buffer pos)) 0 0 0 = some (0, 0) := by
        rw [hh, show (MAX_MATCH_NUM + 2) = (MAX_MATCH_NUM + 1) + 1 from rfl,
          findMatchLoop, if_pos hqm]
      refine ⟨_, hkey 0 0 hres, Or.inl ?_⟩
      rw [if_neg (show ¬ (fm.min_match_len ≤ 0 ∧ fm.min_match_len ≤ 0) by omega)]
    · set C := commonLen ((buffer.drop (pos + 3)).take (fm.max_match_len - 3))
        (buffer.drop (q + 3)) with hC
      have hres : findMatchLoop fm buffer pos
          (if pos < fm.window_size then 0 else pos - fm.window_size) (MAX_MATCH_NUM + 2)
          (fm.head_map (key_from_bytes buffer pos)) 0 0 0 = some (C + 3, pos - q) := by
        rw [hh, show (MAX_MATCH_NUM + 2) = (MAX_MATCH_NUM + 1) + 1 from rfl,
          findMatchLoop_first fm buffer pos _ MAX_MATCH_NUM q hqm hmax]
      by_cases hemit : fm.min_match_len ≤ C + 3 ∧ fm.min_match_len ≤ pos - q
      · refine ⟨_, hkey (C + 3) (pos - q) hres,
          Or.inr ⟨C + 3, pos - q, by rw [if_pos hemit], by omega, by omega, by omega,
            ?_, ?_⟩⟩
        · have h1 : C ≤ ((buffer.drop (pos + 3)).take (fm.max_match_len - 3)).length :=
            commonLen_le_left _ _
          rw [List.length_take, List.length_drop] at h1
          omega
        · intro j hj
          have hpq : pos - (pos - q) + j = q + j := by omega
          rw [hpq]
          rcases Nat.lt_or_ge j 3 with hj3 | hj3
          · have hkk := hqkey
            simp only [key_from_bytes, Prod.mk.injEq] at hkk
            obtain ⟨e0, e1, e2⟩ := hkk
            interval_cases j
            · simpa using e0
            · simpa using e1
            · simpa using e2
          · obtain ⟨i, rfl⟩ : ∃ i, j = 3 + i := ⟨j - 3, by omega⟩
            have hiC : i < C := by omega
            have hx := commonLen_getD _ _ i hiC
            rw [getD_take_drop _ _ _ _ (by
              have h1 : C ≤ ((buffer.drop (pos + 3)).take (fm.max_match_len - 3)).length :=
                commonLen_le_left _ _
              rw [List.length_take] at h1
              omega), getD_drop] at hx
            have hq' : q + (3 + i) = q + 3 + i := by omega
            have hp' : pos + (3 + i) = pos + 3 + i := by omega
            rw [hq', hp']
            exact hx.symm
      · exact ⟨_, hkey (C + 3) (pos - q) hres, Or.inl (by rw [if_neg hemit])⟩

/-- The inverted guard makes the skipped-position loop a no-op whenever its
first position is still in bounds, which holds at every reachable call. -/
theorem insertSkipped_noop (buffer : List Nat) (fm : LZ77MatchFinder) (p m : Nat)
    (h : p + 3 ≤ buffer.length) :
    insertSkipped buffer fm (List.range' p m) = fm := by
  cases m with
  | zero => rfl
  | succ m' =>
    rw [List.range'_succ, insertSkipped, if_pos h]

/-- Expanding the copy loop from a correct prefix extends the prefix: if the
`L` bytes at `pos` equal the `L` bytes at `pos - O` and the copy stays in
bounds, copying from `pos - O` onto `take pos` yields `take (pos + L)`.  The
overlap case `O < L` is covered because each iteration reads an index below
the current output length. -/
theorem lz77CopyGo_take (buffer : List Nat) (pos O L : Nat) (hO1 : 1 ≤ O)
    (hOpos : O ≤ pos) (hlen : pos + L ≤ buffer.length)
    (hbytes : ∀ j, j < L → buffer.getD (pos - O + j) 0 = buffer.getD (pos + j) 0) :
    ∀ k i, i + k = L →
      lz77CopyGo (pos - O) i k (buffer.take (pos + i)) = buffer.take (pos + L) := by
  intro k
  induction k with
  | zero =>
    intro i hi
    rw [lz77CopyGo]
    rw [show pos + i = pos + L by omega]
  | succ k' ih =>
    intro i hi
    rw [lz77CopyGo]
    have hidx : (buffer.take (pos + i)).getD (pos - O + i) 0 = buffer.getD (pos + i) 0 := by
      rw [getD_take _ _ _ (by omega)]
      exact hbytes i (by omega)
    rw [hidx, take_getD_succ _ _ (by omega)]
    have : pos + i + 1 = pos + (i + 1) := by omega
    rw [this]
    exact ih (i + 1) (by omega)

/-- Decompressing a run of literals appends them. -/
theorem foldl_decStep_literals : ∀ (bs acc : List Nat),
    List.foldl lz77DecStep acc (bs.map LZ77Data.Literal) = acc ++ bs := by
  intro bs
  induction bs with
  | nil => intro acc; simp
  | cons b bs ih =>
    intro acc
    rw [List.map_cons, List.foldl_cons, lz77DecStep, ih]
    simp

/-- Main loop correctness: from any position with the index invariant, the
emitted items decompress the remaining suffix on top of the decoded prefix. -/
theorem lz77CompressGo_correct (buffer : List Nat) :
    ∀ (fuel : Nat) (fm : LZ77MatchFinder) (pos : Nat) (data : List LZ77Data),
      FinderInv fm buffer pos → 1 ≤ fm.min_match_len → 3 ≤ fm.max_match_len →
      pos ≤ buffer.length → buffer.length - pos < fuel →
      ∃ rest fm2, lz77CompressGo buffer fuel fm pos data = some (data ++ rest, fm2) ∧
        List.foldl lz77DecStep (buffer.take pos) rest = buffer := by
  intro fuel
  induction fuel with
  | zero => intro fm pos data _ _ _ _ h; omega
  | succ f ih =>
    intro fm pos data hinv hmin hmax hpos hfuel
    rw [lz77CompressGo]
    by_cases hguard : pos + 3 < buffer.length
    · rw [if_pos hguard]
      obtain ⟨d, hfm, hd⟩ := find_match_spec fm buffer pos hmin hmax hinv hguard
      rw [hfm]
      obtain ⟨hw, hm, hx⟩ := insert_params fm buffer pos
      have hinv1 : FinderInv (fm.insert buffer pos) buffer (pos + 1) :=
        finderInv_insert fm buffer pos hinv (by omega)
      rcases hd with hlit | ⟨L, O, rfl, hL3, hO1, hOpos, hLlen, hbytes⟩
      · subst hlit
        obtain ⟨rest, fm2, hgo, hdec⟩ := ih (fm.insert buffer pos) (pos + 1)
          (data ++ [LZ77Data.Literal (buffer.getD pos 0)]) hinv1 (by omega) (by omega)
          (by omega) (by omega)
        refine ⟨LZ77Data.Literal (buffer.getD pos 0) :: rest, fm2, ?_, ?_⟩
        · show lz77CompressGo buffer f (fm.insert buffer pos) (pos + 1)
              (data ++ [LZ77Data.Literal (buffer.getD pos 0)]) = _
          rw [hgo]
          simp
        · rw [List.foldl_cons, lz77DecStep, take_getD_succ _ _ (by omega)]
          exact hdec
      · obtain ⟨rest, fm2, hgo, hdec⟩ := ih (fm.insert buffer pos) (pos + L)
          (data ++ [LZ77Data.Match L O])
          (finderInv_mono _ buffer _ _ hinv1 (by omega)) (by omega) (by omega)
          (by omega) (by omega)
        refine ⟨LZ77Data.Match L O :: rest, fm2, ?_, ?_⟩
        · show lz77CompressGo buffer f
              (insertSkipped buffer (fm.insert buffer pos) (List.range' (pos + 1) (L - 1)))
              (pos + L) (data ++ [LZ77Data.Match L O]) = _
          rw [insertSkipped_noop buffer _ (pos + 1) (L - 1) (by omega), hgo]
          simp
        · rw [List.foldl_cons, lz77DecStep]
          have hlen : (buffer.take pos).length = pos := by
            rw [List.length_take]
            omega
          rw [hlen]
          have := lz77CopyGo_take buffer pos O L hO1 hOpos hLlen hbytes L 0 (by omega)
          rw [show pos + 0 = pos by omega] at this
          rw [this]
          exact hdec
    · rw [if_neg hguard]
      refine ⟨(buffer.drop pos).map LZ77Data.Literal, fm, rfl, ?_⟩
      rw [foldl_decStep_literals, List.take_append_drop]

/-- C2 (counterexample): with `max_match_len = 1 < 3` (allowed by the claim,
which only requires `max_match_len ≥ min_match_len ≥ 1`), the compressor's
`max_match_len - 3` underflows `usize` on the first chain candidate and the
run panics (modelled `none`) instead of round-tripping. -/
theorem lz77_roundtrip_fails_small_max_match :
    Option.map lz77_decompress (lz77_compress_simple [97, 97, 97, 97, 97] 4 1 1) = none := by
  decide

/-- C2 (amended): for every byte buffer and parameters `window_size ≥ 1`,
`min_match_len ≥ 1`, `max_match_len ≥ min_match_len` with additionally
`max_match_len ≥ 3`, LZ77 decompression inverts simple LZ77 compression. -/
theorem lz77_roundtrip (buffer : List Nat) (w mn mx : Nat)
    (hw : 1 ≤ w) (hmn : 1 ≤ mn) (hmnmx : mn ≤ mx) (hmx : 3 ≤ mx) :
    Option.map lz77_decompress (lz77_compress_simple buffer w mn mx) = some buffer := by
  rw [lz77_compress_simple, lz77_compress_full,
    if_neg (show ¬ (mn = 0 ∨ w = 0) by omega)]
  obtain ⟨rest, fm2, hgo, hdec⟩ := lz77CompressGo_correct buffer (buffer.length + 1)
    ⟨w, mn, mx, fun _ => none, fun _ => none⟩ 0 []
    (fun k q hq => by exact Option.noConfusion hq) hmn hmx (by omega) (by omega)
  rw [hgo]
  simp only [Option.map_map, Option.map_some', List.nil_append]
  rw [lz77_decompress]
  simpa using hdec

/-- C2 (witness): the round trip applied to the concrete buffer `"aaaaaa"`
with `window_size = 8`, `min_match_len = 3`, `max_match_len = 8`. -/
theorem lz77_roundtrip_witness :
    Option.map lz77_decompress (lz77_compress_simple [97, 97, 97, 97, 97, 97] 8 3 8) =
      some [97, 97, 97, 97, 97, 97] :=
  lz77_roundtrip [97, 97, 97, 97, 97, 97] 8 3 8 (by decide) (by decide) (by decide) (by decide)

/-- C5: compressing `"aaaaaaaa"` (with `window_size = 8`, `min_match_len = 1`,
`max_match_len = 8`) emits a literal and then the back-reference
`(length 7, offset 1)` that skips positions 2..7; yet at the end of parsing
the hash-chain index holds only positions 0 and 1 (the head for key
`(97,97,97)` is 1 and `next_map` has no entry for position 2): the skipped
intermediate positions were never inserted, because the loop guard
`if pos_to_add + 3 <= buffer.len() {break;}` breaks on the first in-bounds
position, making the insert dead code. -/
theorem lz77_skipped_positions_not_inserted :
    Option.map Prod.fst (lz77_compress_full [97, 97, 97, 97, 97, 97, 97, 97] 8 1 8) =
      some [LZ77Data.Literal 97, LZ77Data.Match 7 1] ∧
    Option.map (fun p => p.2.head_map (97, 97, 97))
      (lz77_compress_full [97, 97, 97, 97, 97, 97, 97, 97] 8 1 8) = some (some 1) ∧
    Option.map (fun p => p.2.next_map 1)
      (lz77_compress_full [97, 97, 97, 97, 97, 97, 97, 97] 8 1 8) = some (some 0) ∧
    Option.map (fun p => p.2.next_map 2)
      (lz77_compress_full [97, 97, 97, 97, 97, 97, 97, 97] 8 1 8) = some none ∧
    Option.map (fun p => p.2.next_map 3)
      (lz77_compress_full [97, 97, 97, 97, 97, 97, 97, 97] 8 1 8) = some none ∧
    Option.map (fun p => p.2.next_map 4)
      (lz77_compress_full [97, 97, 97, 97, 97, 97, 97, 97] 8 1 8) = some none ∧
    Option.map (fun p => p.2.next_map 5)
      (lz77_compress_full [97, 97, 97, 97, 97, 97, 97, 97] 8 1 8) = some none := by
  decide

/-! ## THEOREMS: LZW -/

/-- C3: `compress_lzw` reads `bytes[0]` unconditionally, so the empty input
is an out-of-bounds index (a panic) instead of a stream that decompresses
back to the empty sequence. -/
theorem compress_lzw_empty_input_panics : compress_lzw [] = none := rfl

/-- C6 (counterexample): in the initial decoder state (`next_code = 258`)
the boundary code `c = next_code = 258` is rejected by the decoder's
`panic!` (modelled `corrupt`), although by the claim `c < next_code + 1`
should be accepted and handled by the self-reference path. -/
theorem lzw_decoder_rejects_boundary_code :
    lzwDecProcessCode lzwDecInitState 258 = LZWDecRes.corrupt ∧
    258 < lzwDecInitState.next_code + 1 :=
  ⟨rfl, by decide⟩

/-- C6 (amended): for a non-control code the decoder rejects exactly when
`code ≥ next_code` (the boundary accepted value is `next_code - 1`, the
self-reference case), and the rejection is a `panic!` that halts the
process, not an error result. -/
theorem lzwDecProcessCode_corrupt_iff (st : LZWDecState) (code : Nat)
    (h1 : code ≠ EOD_CODE) (h2 : code ≠ CLEAR_CODE) :
    lzwDecProcessCode st code = LZWDecRes.corrupt ↔ st.next_code ≤ code := by
  rw [lzwDecProcessCode, if_neg h1, if_neg h2]
  by_cases h : st.next_code ≤ code
  · rw [if_pos h]
    simp [h]
  · rw [if_neg h]
    constructor
    · intro hc
      exfalso
      rcases hw : lzwDecWalkBack LZW_MAX_CODE
          (updTable st.table st.next_code { st.table st.next_code with prev := code })
          code with _ | ⟨curr, t2⟩
      · simp only [hw] at hc
        exact LZWDecRes.noConfusion hc
      · simp only [hw] at hc
        rcases he : lzwDecEmit LZW_MAX_CODE
            (updTable t2 (st.next_code - 1) { t2 (st.next_code - 1) with byte := curr })
            curr [] with _ | ⟨out, t4⟩
        · simp only [he] at hc
          exact LZWDecRes.noConfusion hc
        · simp only [he] at hc
          exact LZWDecRes.noConfusion hc
    · intro hc
      exact absurd hc h

/-- C6 (witness): the characterization applied in the initial decoder state
to the out-of-range code 300. -/
theorem lzwDecProcessCode_corrupt_iff_witness :
    lzwDecProcessCode lzwDecInitState 300 = LZWDecRes.corrupt ↔
      lzwDecInitState.next_code ≤ 300 :=
  lzwDecProcessCode_corrupt_iff lzwDecInitState 300 (by decide) (by decide)

/-- The encoder invariant holds initially. -/
theorem lzwEncInv_init (b0 : Nat) : LZWEncInv (lzwEncInit b0) := by
  refine ⟨rfl, ?_, ?_, ?_⟩ <;>
    norm_num [lzwEncInit, LZW_MIN_CODE_LEN, LZW_MAX_CODE_LEN, START_CODE]

/-- The encoder invariant is preserved by every step, so it holds in every
state of a `compress_lzw` run. -/
theorem lzwEncInv_step (st : LZWEncState) (byte : Nat) (h : LZWEncInv st) :
    LZWEncInv (lzwEncStep st byte) := by
  obtain ⟨hc, hmin, hmax, hnext⟩ := h
  rcases hfind : st.table.find? (st.code * 256 + byte) with _ | next
  · simp only [lzwEncStep, hfind]
    by_cases hb : st.next_code + 1 = st.curr_max_code
    · rw [if_pos hb]
      by_cases hm : st.code_len + 1 = LZW_MAX_CODE_LEN
      · rw [if_pos hm]
        refine ⟨rfl, ?_, ?_, ?_⟩ <;>
          norm_num [LZW_MIN_CODE_LEN, LZW_MAX_CODE_LEN, START_CODE]
      · rw [if_neg hm]
        refine ⟨?_, ?_, ?_, ?_⟩
        · show st.curr_max_code * 2 = 2 ^ (st.code_len + 1)
          rw [hc, Nat.pow_succ]
        · show LZW_MIN_CODE_LEN ≤ st.code_len + 1
          omega
        · show st.code_len + 1 ≤ LZW_MAX_CODE_LEN - 1
          have h12 : LZW_MAX_CODE_LEN = 12 := rfl
          have h11 : LZW_MAX_CODE_LEN - 1 = 11 := rfl
          omega
        · show st.next_code + 1 < st.curr_max_code * 2
          have : 0 < st.curr_max_code := by
            rw [hc]; exact Nat.pos_pow_of_pos _ (by omega)
          omega
    · rw [if_neg hb]
      exact ⟨hc, hmin, hmax, show st.next_code + 1 < st.curr_max_code by omega⟩
  · simp only [lzwEncStep, hfind]
    exact ⟨hc, hmin, hmax, hnext⟩

/-- C7 (counterexample): in the (reachable) encoder state of width 11 with
`next_code = 2047`, a dictionary miss emits `CLEAR` at width 12 — yet the
next insert (2048) is far from overflowing `2^MAX_CODE_LEN = 4096`: the
encoder resets upon entering width `MAX_CODE_LEN`, never assigning any code
of the width-12 space, contradicting the claim. -/
theorem lzw_clear_before_full_code_space :
    LZWEncInv lzwPreResetState ∧
    (CLEAR_CODE, LZW_MAX_CODE_LEN) ∈
      (lzwEncStep lzwPreResetState 7).writes.drop lzwPreResetState.writes.length ∧
    lzwPreResetState.next_code + 1 ≠ 2 ^ LZW_MAX_CODE_LEN ∧
    lzwPreResetState.next_code + 1 = 2 ^ (LZW_MAX_CODE_LEN - 1) := by
  refine ⟨by decide, ?_, by decide, by decide⟩
  show (CLEAR_CODE, LZW_MAX_CODE_LEN) ∈
    (lzwEncStep lzwPreResetState 7).writes.drop 0
  decide

/-- C7 (amended): in every encoder state satisfying the run invariant, a
step emits `CLEAR` exactly when the byte is a dictionary miss whose insert
makes `next_code` reach `curr_max_code` with the width reaching
`MAX_CODE_LEN`, i.e. when `next_code + 1 = 2^(MAX_CODE_LEN - 1) = 2048` at
width 11; the reset therefore happens upon entering width `MAX_CODE_LEN`,
before any code of the width-`MAX_CODE_LEN` space is assigned (not after
filling it).  The width otherwise increments exactly when
`next_code + 1 = curr_max_code` on a miss. -/
theorem lzwEncStep_clear_iff (st : LZWEncState) (byte : Nat) (hinv : LZWEncInv st) :
    (CLEAR_CODE, LZW_MAX_CODE_LEN) ∈
        (lzwEncStep st byte).writes.drop st.writes.length ↔
      st.table.find? (st.code * 256 + byte) = none ∧
        st.next_code + 1 = 2 ^ (LZW_MAX_CODE_LEN - 1) ∧
        st.code_len = LZW_MAX_CODE_LEN - 1 := by
  obtain ⟨hc, hmin, hmax, hnext⟩ := hinv
  have h12 : LZW_MAX_CODE_LEN = 12 := rfl
  have h11 : LZW_MAX_CODE_LEN - 1 = 11 := rfl
  have hclear : CLEAR_CODE = 256 := rfl
  rcases hfind : st.table.find? (st.code * 256 + byte) with _ | next
  · simp only [lzwEncStep, hfind]
    by_cases hb : st.next_code + 1 = st.curr_max_code
    · rw [if_pos hb]
      by_cases hm : st.code_len + 1 = LZW_MAX_CODE_LEN
      · rw [if_pos hm]
        rw [List.drop_left]
        constructor
        · intro _
          refine ⟨trivial, ?_, by omega⟩
          rw [hb, hc]
          congr 1
          omega
        · intro _
          have hpair : (CLEAR_CODE, LZW_MAX_CODE_LEN) = (CLEAR_CODE, st.code_len + 1) := by
            rw [Prod.mk.injEq]
            exact ⟨rfl, by omega⟩
          rw [hpair]
          exact List.mem_cons_of_mem _ (List.mem_singleton.mpr rfl)
      · rw [if_neg hm]
        rw [List.drop_left]
        constructor
        · intro hmem
          rw [List.mem_singleton, Prod.mk.injEq] at hmem
          exfalso
          obtain ⟨-, h2⟩ := hmem
          omega
        · rintro ⟨-, -, hlen⟩
          exfalso
          omega
    · rw [if_neg hb]
      rw [List.drop_left]
      constructor
      · intro hmem
        rw [List.mem_singleton, Prod.mk.injEq] at hmem
        exfalso
        obtain ⟨-, h2⟩ := hmem
        omega
      · rintro ⟨-, hn, hlen⟩
        exfalso
        apply hb
        rw [hn, hc, hlen]
  · simp only [lzwEncStep, hfind, List.drop_length]
    simp [hfind]

/-- C7 (witness): the characterization applied to the concrete pre-reset
state and byte 7. -/
theorem lzwEncStep_clear_iff_witness :
    (CLEAR_CODE, LZW_MAX_CODE_LEN) ∈
        (lzwEncStep lzwPreResetState 7).writes.drop lzwPreResetState.writes.length ↔
      lzwPreResetState.table.find? (lzwPreResetState.code * 256 + 7) = none ∧
        lzwPreResetState.next_code + 1 = 2 ^ (LZW_MAX_CODE_LEN - 1) ∧
        lzwPreResetState.code_len = LZW_MAX_CODE_LEN - 1 :=
  lzwEncStep_clear_iff lzwPreResetState 7 (by decide)

/-! ## THEOREMS: Huffman table construction and code-size limiting -/

theorem clampLoop_spec (t : List HuffmanTableData) :
    clampLoop t = (t.map (fun e => ⟨e.symbol, min e.level MAX_CODE_LEN⟩),
      kraftSum (t.map (fun e => ⟨e.symbol, min e.level MAX_CODE_LEN⟩))) := by
  induction t with
  | nil => simp [clampLoop, kraftSum]
  | cons e rest ih => simp [clampLoop, ih, kraftSum, Nat.add_comm]

theorem raiseLoop_spec : ∀ (fuel level k : Nat), level ≤ MAX_CODE_LEN →
    MAX_CODE_LEN - level ≤ fuel → 2 ^ (MAX_CODE_LEN - level) ≤ k →
    raiseLoop fuel level k = (MAX_CODE_LEN, k - (2 ^ (MAX_CODE_LEN - level) - 1)) := by
  intro fuel
  induction fuel with
  | zero =>
    intro level k hle hfuel _
    have hlv : level = MAX_CODE_LEN := by omega
    subst hlv
    simp [raiseLoop]
  | succ fuel ih =>
    intro level k hle hfuel hw
    by_cases hlt : level < MAX_CODE_LEN
    · have hstep : 2 ^ (MAX_CODE_LEN - level) = 2 * 2 ^ (MAX_CODE_LEN - (level + 1)) := by
        have hx : MAX_CODE_LEN - level = (MAX_CODE_LEN - (level + 1)) + 1 := by omega
        rw [hx, pow_succ]; ring
      rw [show raiseLoop (fuel + 1) level k
            = raiseLoop fuel (level + 1) (k - 2 ^ (MAX_CODE_LEN - (level + 1))) from by
          simp [raiseLoop, hlt]]
      rw [ih (level + 1) (k - 2 ^ (MAX_CODE_LEN - (level + 1))) (by omega) (by omega) (by omega)]
      have hk : (k - 2 ^ (MAX_CODE_LEN - (level + 1))) - (2 ^ (MAX_CODE_LEN - (level + 1)) - 1)
          = k - (2 ^ (MAX_CODE_LEN - level) - 1) := by omega
      rw [hk]
    · have hlv : level = MAX_CODE_LEN := by omega
      subst hlv
      simp [raiseLoop]

theorem flattenRev_cons (e : HuffmanTableData) (rest : List HuffmanTableData) (k : Nat)
    (h : ¬ k ≤ K_MAX) :
    flattenRev (e :: rest) k =
      (⟨e.symbol, (raiseLoop MAX_CODE_LEN e.level k).1⟩ ::
         (flattenRev rest (raiseLoop MAX_CODE_LEN e.level k).2).1,
       (flattenRev rest (raiseLoop MAX_CODE_LEN e.level k).2).2) := by
  rcases h1 : raiseLoop MAX_CODE_LEN e.level k with ⟨lv, k2⟩
  rcases h2 : flattenRev rest k2 with ⟨r2, k3⟩
  simp [flattenRev, h, h1, h2]

theorem flattenRev_spec : ∀ (t : List HuffmanTableData) (c k : Nat)
    (t' : List HuffmanTableData) (k' : Nat),
    (∀ e ∈ t, 1 ≤ e.level ∧ e.level ≤ MAX_CODE_LEN) → k = kraftSum t + c →
    flattenRev t k = (t', k') →
    k' = kraftSum t' + c ∧
    (∀ e ∈ t', 1 ≤ e.level ∧ e.level ≤ MAX_CODE_LEN) ∧
    (k' ≤ K_MAX ∨ ∀ e ∈ t', e.level = MAX_CODE_LEN) ∧
    t'.length = t.length ∧
    (List.Pairwise (fun a b : HuffmanTableData => b.level ≤ a.level) t →
      List.Pairwise (fun a b : HuffmanTableData => b.level ≤ a.level) t') := by
  intro t
  induction t with
  | nil =>
    intro c k t' k' _ hk hfr
    simp only [flattenRev] at hfr
    injection hfr with h1 h2
    subst h1; subst h2
    exact ⟨hk, by simp, Or.inr (by simp), rfl, fun h => h⟩
  | cons e rest ih =>
    intro c k t' k' hlv hk hfr
    by_cases hstop : k ≤ K_MAX
    · have hfr2 : flattenRev (e :: rest) k = (e :: rest, k) := by
        simp [flattenRev, hstop]
      rw [hfr2] at hfr
      injection hfr with h1 h2
      subst h1; subst h2
      exact ⟨hk, hlv, Or.inl hstop, rfl, fun h => h⟩
    · obtain ⟨he1, heM⟩ := hlv e (by simp)
      have hksum : kraftSum (e :: rest) = 2 ^ (MAX_CODE_LEN - e.level) + kraftSum rest := by
        simp [kraftSum]
      have hpow1 : 0 < 2 ^ (MAX_CODE_LEN - e.level) := pow_pos (by norm_num) _
      have hown : 2 ^ (MAX_CODE_LEN - e.level) ≤ k := by omega
      have hr := raiseLoop_spec MAX_CODE_LEN e.level k heM (by omega) hown
      rw [flattenRev_cons e rest k hstop] at hfr
      rcases hrec : flattenRev rest (k - (2 ^ (MAX_CODE_LEN - e.level) - 1)) with ⟨r2, k3⟩
      simp only [hr, hrec] at hfr
      injection hfr with h1 h2
      subst h1; subst h2
      obtain ⟨g1, g2, g3, g4, g5⟩ :=
        ih (c + 1) (k - (2 ^ (MAX_CODE_LEN - e.level) - 1)) r2 k3
          (fun x hx => hlv x (by simp [hx])) (by omega) hrec
      have hksum2 : kraftSum (⟨e.symbol, MAX_CODE_LEN⟩ :: r2) = 1 + kraftSum r2 := by
        simp [kraftSum]
      refine ⟨by omega, ?_, ?_, by simp [g4], ?_⟩
      · intro x hx
        rcases List.mem_cons.mp hx with h | h
        · subst h
          exact ⟨by norm_num [MAX_CODE_LEN], le_refl _⟩
        · exact g2 x h
      · rcases g3 with h | h
        · exact Or.inl h
        · refine Or.inr ?_
          intro x hx
          rcases List.mem_cons.mp hx with hh | hh
          · subst hh; rfl
          · exact h x hh
      · intro hp
        obtain ⟨_, hp2⟩ := List.pairwise_cons.mp hp
        exact List.pairwise_cons.mpr ⟨fun x hx => (g2 x hx).2, g5 hp2⟩

theorem lowerLoop_spec : ∀ (fuel level k lv k2 : Nat), 1 ≤ level →
    level ≤ MAX_CODE_LEN → level < fuel → 2 ^ (MAX_CODE_LEN - level) ≤ k →
    lowerLoop fuel level k = (lv, k2) →
    1 ≤ lv ∧ lv ≤ level ∧ lv ≤ MAX_CODE_LEN ∧
    k2 + 2 ^ (MAX_CODE_LEN - level) = k + 2 ^ (MAX_CODE_LEN - lv) ∧
    2 ^ (MAX_CODE_LEN - lv) ≤ k2 ∧
    K_MAX < k2 + 2 ^ (MAX_CODE_LEN - lv) ∧
    k ≤ k2 ∧ (k2 = k ∨ k2 ≤ K_MAX) ∧
    (∀ m, K_MAX < k + 2 ^ (MAX_CODE_LEN - m) → m ≤ level → m ≤ lv) := by
  intro fuel
  induction fuel with
  | zero => intro level k lv k2 _ _ hf _ _; exact absurd hf (Nat.not_lt_zero level)
  | succ fuel ih =>
    intro level k lv k2 h1 hM hf hw hL
    by_cases hg : k + 2 ^ (MAX_CODE_LEN - level) ≤ K_MAX
    · rcases Nat.eq_or_lt_of_le h1 with h1' | h1'
      · exfalso
        rw [← h1'] at hg hw
        norm_num [MAX_CODE_LEN, K_MAX] at hg hw
        omega
      · have hstep : 2 ^ (MAX_CODE_LEN - (level - 1)) = 2 * 2 ^ (MAX_CODE_LEN - level) := by
          have hM12 : MAX_CODE_LEN = 12 := rfl
          have hx : MAX_CODE_LEN - (level - 1) = (MAX_CODE_LEN - level) + 1 := by omega
          rw [hx, pow_succ]; ring
        have hB : 0 < 2 ^ (MAX_CODE_LEN - level) := pow_pos (by norm_num) _
        have hL2 : lowerLoop fuel (level - 1) (k + 2 ^ (MAX_CODE_LEN - level)) = (lv, k2) := by
          rw [← hL]; simp [lowerLoop, hg]
        obtain ⟨c1, c2, c3, c4, c5, c6, c7, c8, c9⟩ :=
          ih (level - 1) (k + 2 ^ (MAX_CODE_LEN - level)) lv k2 (by omega) (by omega) (by omega)
            (by omega) hL2
        refine ⟨c1, by omega, c3, by omega, c5, c6, by omega, ?_, ?_⟩
        · rcases c8 with h | h
          · exact Or.inr (by omega)
          · exact Or.inr h
        · intro m hm hmle
          have hmlt : m ≤ level - 1 := by
            rcases Nat.lt_or_ge m level with h | h
            · omega
            · exfalso
              have hmeq : m = level := by omega
              subst hmeq
              omega
          exact c9 m (by omega) hmlt
    · have hL2 : (level, k) = (lv, k2) := by
        rw [← hL]; simp [lowerLoop, hg]
      injection hL2 with hlv hk2
      subst hlv; subst hk2
      exact ⟨h1, le_refl _, hM, rfl, hw, by omega, le_refl _, Or.inl rfl,
        fun m _ hmle => hmle⟩

theorem redistribute_cons (e : HuffmanTableData) (rest : List HuffmanTableData) (k : Nat) :
    redistribute (e :: rest) k =
      (⟨e.symbol, (lowerLoop (e.level + 1) e.level k).1⟩ ::
         (redistribute rest (lowerLoop (e.level + 1) e.level k).2).1,
       (redistribute rest (lowerLoop (e.level + 1) e.level k).2).2) := by
  rcases h : lowerLoop (e.level + 1) e.level k with ⟨lv, k2⟩
  rcases h2 : redistribute rest k2 with ⟨r2, k3⟩
  simp [redistribute, h, h2]

theorem redistribute_spec : ∀ (t : List HuffmanTableData) (k : Nat)
    (t' : List HuffmanTableData) (k' : Nat),
    (∀ e ∈ t, 1 ≤ e.level ∧ e.level ≤ MAX_CODE_LEN) → kraftSum t ≤ k →
    redistribute t k = (t', k') →
    (∀ e ∈ t', 1 ≤ e.level ∧ e.level ≤ MAX_CODE_LEN) ∧
    k' + kraftSum t = k + kraftSum t' ∧
    (k' = k ∨ k' ≤ K_MAX) := by
  intro t
  induction t with
  | nil =>
    intro k t' k' _ _ hred
    simp only [redistribute] at hred
    injection hred with h1 h2
    subst h1; subst h2
    exact ⟨by simp, rfl, Or.inl rfl⟩
  | cons e rest ih =>
    intro k t' k' hlv hks hred
    obtain ⟨he1, heM⟩ := hlv e (by simp)
    have hksum : kraftSum (e :: rest) = 2 ^ (MAX_CODE_LEN - e.level) + kraftSum rest := by
      simp [kraftSum]
    rcases hlow : lowerLoop (e.level + 1) e.level k with ⟨lv, k2⟩
    obtain ⟨c1, c2, c3, c4, c5, c6, c7, c8, c9⟩ :=
      lowerLoop_spec (e.level + 1) e.level k lv k2 he1 heM (by omega) (by omega) hlow
    have hgw : 0 < 2 ^ (MAX_CODE_LEN - e.level) := pow_pos (by norm_num) _
    have hgl : 0 < 2 ^ (MAX_CODE_LEN - lv) := pow_pos (by norm_num) _
    rw [redistribute_cons] at hred
    rcases hrec : redistribute rest k2 with ⟨r2, k3⟩
    simp only [hlow, hrec] at hred
    injection hred with h1 h2
    subst h1; subst h2
    obtain ⟨d1, d2, d3⟩ := ih k2 r2 k3 (fun x hx => hlv x (by simp [hx])) (by omega) hrec
    have hksum2 : kraftSum (⟨e.symbol, lv⟩ :: r2)
        = 2 ^ (MAX_CODE_LEN - lv) + kraftSum r2 := by
      simp [kraftSum]
    refine ⟨?_, by omega, ?_⟩
    · intro x hx
      rcases List.mem_cons.mp hx with h | h
      · subst h; exact ⟨c1, c3⟩
      · exact d1 x h
    · rcases d3 with h | h
      · rcases c8 with h' | h'
        · exact Or.inl (by omega)
        · exact Or.inr (by omega)
      · exact Or.inr h

theorem redistribute_sorted : ∀ (t : List HuffmanTableData) (k fl : Nat)
    (t' : List HuffmanTableData) (k' : Nat),
    (∀ e ∈ t, 1 ≤ e.level ∧ e.level ≤ MAX_CODE_LEN) → kraftSum t ≤ k →
    (∀ e ∈ t, fl ≤ e.level) → K_MAX < k + 2 ^ (MAX_CODE_LEN - fl) →
    List.Pairwise levelLeR t → redistribute t k = (t', k') →
    List.Pairwise levelLeR t' ∧ (∀ e ∈ t', fl ≤ e.level) := by
  intro t
  induction t with
  | nil =>
    intro k fl t' k' _ _ _ _ _ hred
    simp only [redistribute] at hred
    injection hred with h1 h2
    subst h1
    exact ⟨List.Pairwise.nil, by simp⟩
  | cons e rest ih =>
    intro k fl t' k' hlv hks hfl hflk hpw hred
    obtain ⟨he1, heM⟩ := hlv e (by simp)
    have hksum : kraftSum (e :: rest) = 2 ^ (MAX_CODE_LEN - e.level) + kraftSum rest := by
      simp [kraftSum]
    rcases hlow : lowerLoop (e.level + 1) e.level k with ⟨lv, k2⟩
    obtain ⟨c1, c2, c3, c4, c5, c6, c7, c8, c9⟩ :=
      lowerLoop_spec (e.level + 1) e.level k lv k2 he1 heM (by omega) (by omega) hlow
    have hgw : 0 < 2 ^ (MAX_CODE_LEN - e.level) := pow_pos (by norm_num) _
    have hgl : 0 < 2 ^ (MAX_CODE_LEN - lv) := pow_pos (by norm_num) _
    rw [redistribute_cons] at hred
    rcases hrec : redistribute rest k2 with ⟨r2, k3⟩
    simp only [hlow, hrec] at hred
    injection hred with h1 h2
    subst h1
    obtain ⟨hhead, htail⟩ := List.pairwise_cons.mp hpw
    have hLfl : fl ≤ lv := c9 fl hflk (hfl e (by simp))
    have htailfl : ∀ x ∈ rest, lv ≤ x.level := by
      intro x hx
      exact le_trans c2 (hhead x hx)
    obtain ⟨d1, d2⟩ := ih k2 lv r2 k3 (fun x hx => hlv x (by simp [hx])) (by omega) htailfl c6
      htail hrec
    constructor
    · exact List.pairwise_cons.mpr ⟨fun x hx => d2 x hx, d1⟩
    · intro x hx
      rcases List.mem_cons.mp hx with h | h
      · subst h; exact hLfl
      · exact le_trans hLfl (d2 x h)

theorem kraftSum_reverse (t : List HuffmanTableData) : kraftSum t.reverse = kraftSum t := by
  simp [kraftSum, List.map_reverse, List.sum_reverse]

theorem kraftSum_all_max (t : List HuffmanTableData)
    (h : ∀ e ∈ t, e.level = MAX_CODE_LEN) : kraftSum t = t.length := by
  induction t with
  | nil => simp [kraftSum]
  | cons e rest ih =>
    have he := h e (by simp)
    have hc : kraftSum (e :: rest) = 2 ^ (MAX_CODE_LEN - e.level) + kraftSum rest := by
      simp [kraftSum]
    rw [hc, he, Nat.sub_self, pow_zero, ih (fun x hx => h x (by simp [hx]))]
    simp [Nat.add_comm]

theorem leavesHelper_level_ge : ∀ (n : HuffmanNode) (lv : Nat),
    ∀ e ∈ leavesHelper n lv, lv ≤ e.level := by
  intro n
  induction n with
  | leaf f s =>
    intro lv e he
    simp [leavesHelper] at he
    subst he
    exact le_refl _
  | node f l r ihl ihr =>
    intro lv e he
    simp [leavesHelper] at he
    rcases he with h | h
    · exact le_trans (by omega) (ihl (lv + 1) e h)
    · exact le_trans (by omega) (ihr (lv + 1) e h)

theorem leaves_level_pos (n : HuffmanNode) : ∀ e ∈ n.leaves, 1 ≤ e.level := by
  cases n with
  | leaf f s =>
    intro e he
    simp [HuffmanNode.leaves] at he
    subst he
    exact le_refl _
  | node f l r =>
    intro e he
    have hn : HuffmanNode.leaves (HuffmanNode.node f l r)
        = leavesHelper (HuffmanNode.node f l r) 0 := rfl
    rw [hn] at he
    simp [leavesHelper] at he
    rcases he with h | h
    · exact leavesHelper_level_ge l 1 e h
    · exact leavesHelper_level_ge r 1 e h

theorem limit_spec (table t : List HuffmanTableData)
    (hlv : ∀ e ∈ table, 1 ≤ e.level)
    (h : limit_huffman_table_code_sizes table = some t) :
    (∀ e ∈ t, 1 ≤ e.level ∧ e.level ≤ MAX_CODE_LEN) ∧
    kraftSum t ≤ 2 ^ MAX_CODE_LEN ∧
    (List.Pairwise levelLeR table → List.Pairwise levelLeR t) := by
  have hlen : table.length ≤ 2 ^ MAX_CODE_LEN := by
    by_contra hcon
    simp [limit_huffman_table_code_sizes, hcon] at h
  rcases h1 : clampLoop table with ⟨t1, k1⟩
  rcases h2 : flattenRev t1.reverse k1 with ⟨t2r, k2⟩
  rcases h3 : redistribute t2r.reverse k2 with ⟨t3, k3⟩
  have hlim2 : limit_huffman_table_code_sizes table = some t3 := by
    simp [limit_huffman_table_code_sizes, hlen, h1, h2, h3]
  rw [hlim2] at h
  have ht : t3 = t := Option.some.inj h
  subst ht
  have hcl := clampLoop_spec table
  rw [h1] at hcl
  have ht1 : t1 = table.map (fun e => (⟨e.symbol, min e.level MAX_CODE_LEN⟩ : HuffmanTableData)) :=
    congrArg Prod.fst hcl
  have hk1 : k1 = kraftSum (table.map (fun e => (⟨e.symbol, min e.level MAX_CODE_LEN⟩ : HuffmanTableData))) :=
    congrArg Prod.snd hcl
  subst ht1
  subst hk1
  have hlvr : ∀ x ∈ (table.map (fun e => (⟨e.symbol, min e.level MAX_CODE_LEN⟩ : HuffmanTableData))).reverse,
      1 ≤ x.level ∧ x.level ≤ MAX_CODE_LEN := by
    intro x hx
    rw [List.mem_reverse] at hx
    obtain ⟨a, ha, rfl⟩ := List.mem_map.mp hx
    exact ⟨le_min (hlv a ha) (by norm_num [MAX_CODE_LEN]), min_le_right _ _⟩
  obtain ⟨f1, f2, f3, f4, f5⟩ :=
    flattenRev_spec (table.map (fun e => (⟨e.symbol, min e.level MAX_CODE_LEN⟩ : HuffmanTableData))).reverse 0
      (kraftSum (table.map (fun e => (⟨e.symbol, min e.level MAX_CODE_LEN⟩ : HuffmanTableData)))) t2r k2 hlvr
      (by simp [kraftSum_reverse]) h2
  have hlvr2 : ∀ x ∈ t2r.reverse, 1 ≤ x.level ∧ x.level ≤ MAX_CODE_LEN := by
    intro x hx
    rw [List.mem_reverse] at hx
    exact f2 x hx
  obtain ⟨r1, r2, r3⟩ := redistribute_spec t2r.reverse k2 t3 k3 hlvr2
    (by rw [kraftSum_reverse]; omega) h3
  have hkq : kraftSum t3 = k3 := by
    have hrev := kraftSum_reverse t2r
    omega
  have hnum : K_MAX + 1 = 2 ^ MAX_CODE_LEN := by norm_num [K_MAX, MAX_CODE_LEN]
  refine ⟨r1, ?_, ?_⟩
  · rcases r3 with hq | hq
    · rcases f3 with hh | hh
      · omega
      · have hall := kraftSum_all_max t2r hh
        have hl1 : t2r.length
            = (table.map (fun e => (⟨e.symbol, min e.level MAX_CODE_LEN⟩ : HuffmanTableData))).reverse.length := f4
        have hl2 : (table.map (fun e => (⟨e.symbol, min e.level MAX_CODE_LEN⟩ : HuffmanTableData))).reverse.length
            = table.length := by simp
        omega
    · omega
  · intro hsor
    have hpm : List.Pairwise levelLeR
        (table.map (fun e => (⟨e.symbol, min e.level MAX_CODE_LEN⟩ : HuffmanTableData))) := by
      rw [List.pairwise_map]
      exact hsor.imp fun hab => min_le_min hab (le_refl _)
    have hprev : List.Pairwise (fun a b : HuffmanTableData => b.level ≤ a.level)
        (table.map (fun e => (⟨e.symbol, min e.level MAX_CODE_LEN⟩ : HuffmanTableData))).reverse := by
      rw [List.pairwise_reverse]
      exact hpm
    have h2r := f5 hprev
    have hp2 : List.Pairwise levelLeR t2r.reverse := by
      rw [List.pairwise_reverse]
      exact h2r
    have h0 : (2:Nat) ^ (MAX_CODE_LEN - 0) = 2 ^ MAX_CODE_LEN := by norm_num
    exact (redistribute_sorted t2r.reverse k2 0 t3 k3 hlvr2
      (by rw [kraftSum_reverse]; omega) (fun x _ => Nat.zero_le _) (by omega) hp2 h3).1

theorem buildHuffmanTable_eq (freq : List Nat) (t : List HuffmanTableData)
    (h : buildHuffmanTable freq = some t) :
    ∃ root rest,
      (huffmanCombineGo ((huffmanLeafHeap freq).length + 1) (huffmanLeafHeap freq)).bind
          binaryHeapPop = some (root, rest) ∧
      limit_huffman_table_code_sizes (List.insertionSort levelLeR root.leaves) = some t := by
  rcases hb : (huffmanCombineGo ((huffmanLeafHeap freq).length + 1)
      (huffmanLeafHeap freq)).bind binaryHeapPop with _ | ⟨root, rest⟩
  · simp [buildHuffmanTable, hb] at h
  · exact ⟨root, rest, rfl, by simpa [buildHuffmanTable, hb] using h⟩

/-- C1: the Huffman round trip fails already at compression time on the empty
input: `encode_all` clamps the chunk size to `min chunk_size bytes.len() = 0`
and `(0..0).step_by(0)` panics on its `assert!(step != 0)`, for every
requested chunk size (in particular every `chunk_size ≥ 1`) and any writer
state, so no encoded output is ever produced for `b = []`. -/
theorem huffman_encode_all_bytes_empty_panics :
    ∀ (chunk_size : Nat) (writer : BitWriter),
      encode_all_bytes [] chunk_size writer = none := by
  intro cs w
  simp [encode_all_bytes, encode_all, bytes_to_symbols]

/-- C8: whenever `build_huffman_table` succeeds (the heap combine produced a
root and the limiter's assert passed), every entry of the resulting table has
level between 1 and `MAX_CODE_LEN`, and the normalized Kraft sum
`Σ 2^(MAX_CODE_LEN − level)` is at most `2^MAX_CODE_LEN`. -/
theorem huffman_limit_levels_and_kraft (freq : List Nat) (t : List HuffmanTableData)
    (h : buildHuffmanTable freq = some t) :
    (∀ e ∈ t, 1 ≤ e.level ∧ e.level ≤ MAX_CODE_LEN) ∧
    kraftSum t ≤ 2 ^ MAX_CODE_LEN := by
  obtain ⟨root, rest, hpop, hlim⟩ := buildHuffmanTable_eq freq t h
  have hlv : ∀ e ∈ List.insertionSort levelLeR root.leaves, 1 ≤ e.level := by
    intro e he
    exact leaves_level_pos root e ((List.mem_insertionSort levelLeR).mp he)
  obtain ⟨a, b, _⟩ := limit_spec _ t hlv hlim
  exact ⟨a, b⟩

/-- Witness for the C8 theorem at the two-symbol histogram `c8Freq`,
whose built table is `[(0, 1), (1, 2)]`. -/
theorem huffman_limit_levels_and_kraft_witness :
    (∀ e ∈ ([⟨0, 1⟩, ⟨1, 2⟩] : List HuffmanTableData),
        1 ≤ e.level ∧ e.level ≤ MAX_CODE_LEN) ∧
    kraftSum [⟨0, 1⟩, ⟨1, 2⟩] ≤ 2 ^ MAX_CODE_LEN :=
  huffman_limit_levels_and_kraft c8Freq [⟨0, 1⟩, ⟨1, 2⟩] (by decide)

/-- Counterexample to C9: on the histogram (5, 6, 3, 4) for symbols 0..3 the
built table is `[(2,2), (3,2), (0,2), (1,3)]` — level-sorted, but symbol 3
precedes symbol 0 at equal level 2, so the table is not sorted by
(level ascending, symbol ascending). -/
theorem huffman_table_symbol_order_violated :
    buildHuffmanTable c9Freq = some [⟨2, 2⟩, ⟨3, 2⟩, ⟨0, 2⟩, ⟨1, 3⟩] ∧
    ¬ List.Pairwise
        (fun a b : HuffmanTableData =>
          a.level < b.level ∨ (a.level = b.level ∧ a.symbol < b.symbol))
        [⟨2, 2⟩, ⟨3, 2⟩, ⟨0, 2⟩, ⟨1, 3⟩] := by
  exact ⟨by decide, by decide⟩

/-- C9 (amended): every table produced by `build_huffman_table` is sorted by
level ascending — `Ord for HuffmanTableData` compares levels only, so the
stable `sort()` orders by level and every limiting pass preserves that
order — but not necessarily by symbol within a level. -/
theorem huffman_table_level_sorted (freq : List Nat) (t : List HuffmanTableData)
    (h : buildHuffmanTable freq = some t) : List.Pairwise levelLeR t := by
  obtain ⟨root, rest, hpop, hlim⟩ := buildHuffmanTable_eq freq t h
  have hlv : ∀ e ∈ List.insertionSort levelLeR root.leaves, 1 ≤ e.level := by
    intro e he
    exact leaves_level_pos root e ((List.mem_insertionSort levelLeR).mp he)
  exact (limit_spec _ t hlv hlim).2.2
    (List.sorted_insertionSort levelLeR root.leaves)

/-- Witness for the C9 amended theorem at the histogram `c9Freq`. -/
theorem huffman_table_level_sorted_witness :
    List.Pairwise levelLeR
      ([⟨2, 2⟩, ⟨3, 2⟩, ⟨0, 2⟩, ⟨1, 3⟩] : List HuffmanTableData) :=
  huffman_table_level_sorted c9Freq [⟨2, 2⟩, ⟨3, 2⟩, ⟨0, 2⟩, ⟨1, 3⟩] (by decide)

end LZC
